import Mathlib

/-!
Chained hash table over a singly linked list (`chainhash.h`).

A shallow embedding of the two class templates of `chainhash.h`:

* `LinkedList<T>`: the chain of nodes reachable from `m_head` is a `List T`
  (head first) and the cached counter `m_size` is kept as a separate field,
  updated exactly where the source updates it.
* `LinkedList<T>::iterator`: the field `Node **cur` is the address of a link
  slot.  Slot `0` is `&m_head`, slot `i + 1` is `&node_i->next`; the null
  pointer is `none`.
* `ChainHash<K, T>`: the fields `size`, `used_buckets`, `capacity` and the
  heap array `buckets`, a `List` of linked lists.

Conventions.

* `size_t` counters are natural numbers without wrap-around: every counted
  node or bucket occupies memory, so `++` cannot overflow, and `capacity * 2`
  is taken without overflow (allocation failure is fatal and not modelled).
* An operation whose source has undefined behaviour (remainder by zero, an
  array read outside the allocation, a null dereference) returns
  `Error.undefined_behaviour`; a thrown exception returns the matching
  constructor of `Error`.
* `std::hash<K>` is the parameter `get_hash_code : K → Nat`, and `operator==`
  on keys is decidable equality.
-/

namespace ChainHashTable

/-- Failure modes: the exceptions thrown by the source, undefined behaviour,
and the bound of the iterator loop of `ChainHash::remove`. -/
inductive Error where
  /-- Thrown as `std::runtime_error("list is empty")`. -/
  | list_is_empty
  /-- Thrown as `std::out_of_range("list index out of bounds")`. -/
  | list_index_out_of_bounds
  /-- Thrown as `std::out_of_range("Key not found")`. -/
  | key_not_found
  /-- Thrown as `std::out_of_range("Bucket index out of bounds")`. -/
  | bucket_index_out_of_bounds
  /-- No exception in the source: the behaviour is undefined. -/
  | undefined_behaviour
  /-- The step bound of a modelled loop was exhausted (never happens, see
  `ChainHash.remove_loop_fuel`). -/
  | loop_bound
  deriving DecidableEq, Repr

/-- The constant `maxColision = 3`. -/
def maxColision : Nat := 3

/-- Numerator of `maxFillFactor`: the `float` nearest to `0.8` is
`13421773 / 2 ^ 24`. -/
def maxFillFactor_num : Nat := 13421773

/-- Denominator of `maxFillFactor`, `2 ^ 24`. -/
def maxFillFactor_den : Nat := 16777216

/-- Class `LinkedList<T>`: the node chain from `m_head` and the counter
`m_size`. -/
structure LinkedList (T : Type) where
  m_head : List T
  m_size : Nat
  deriving DecidableEq, Repr

/-- Class `LinkedList<T>::iterator`: `cur` is a link slot, `none` is
`nullptr`. -/
structure iterator where
  cur : Option Nat
  deriving DecidableEq, Repr

namespace LinkedList

variable {T : Type}

/-- Default constructor `LinkedList()`: null head, size zero. -/
def empty : LinkedList T := ⟨[], 0⟩

/-- Member `push_front`: a new node in front of the head, `++m_size`. -/
def push_front (l : LinkedList T) (data : T) : LinkedList T :=
  ⟨data :: l.m_head, l.m_size + 1⟩

/-- Member `size()`: the cached counter. -/
def size (l : LinkedList T) : Nat := l.m_size

/-- Member `begin()`: `nullptr` for a null head, else `&m_head`. -/
def begin (l : LinkedList T) : iterator :=
  ⟨if l.m_head.isEmpty then none else some 0⟩

/-- Member `end()`: the iterator holding `nullptr`. -/
def end_ (_l : LinkedList T) : iterator := ⟨none⟩

/-- Member `remove(it)`: `delete std::exchange(*it.cur, (*it.cur)->next)` and
`--m_size`.  Dereferencing a null `cur`, or a slot that holds no node, is
undefined.  The counter is decremented only after a node was unlinked, so it
counts at least that node and the decrement does not wrap. -/
def remove (l : LinkedList T) (it : iterator) : Except Error (LinkedList T) :=
  match it.cur with
  | none => .error .undefined_behaviour
  | some i =>
    if i < l.m_head.length then .ok ⟨l.m_head.eraseIdx i, l.m_size - 1⟩
    else .error .undefined_behaviour

end LinkedList

namespace iterator

variable {T : Type}

/-- Prefix `operator++`: `cur = &(*cur)->next`, then `cur = nullptr` when the
new slot holds no node. -/
def next (l : LinkedList T) (it : iterator) : Except Error iterator :=
  match it.cur with
  | none => .error .undefined_behaviour
  | some i =>
    if i < l.m_head.length then
      .ok ⟨if i + 1 < l.m_head.length then some (i + 1) else none⟩
    else .error .undefined_behaviour

/-- Member `operator*`: `(*cur)->data`. -/
def deref (l : LinkedList T) (it : iterator) : Except Error T :=
  match it.cur with
  | none => .error .undefined_behaviour
  | some i =>
    match l.m_head[i]? with
    | some x => .ok x
    | none => .error .undefined_behaviour

end iterator

namespace LinkedList

variable {T : Type}

/-- Member `front()`: throws on a null head, else `m_head->data`. -/
def front (l : LinkedList T) : Except Error T :=
  match l.m_head with
  | [] => .error .list_is_empty
  | x :: _ => .ok x

/-- The walk of `back()` from a node with data `x` whose `next` chain is the
second argument: `while (cur->next != nullptr) cur = cur->next`, then
`cur->data`. -/
def back_walk : T → List T → T
  | x, [] => x
  | _, y :: rest => back_walk y rest

/-- Member `back()`. -/
def back (l : LinkedList T) : Except Error T :=
  match l.m_head with
  | [] => .error .list_is_empty
  | x :: rest => .ok (back_walk x rest)

/-- The walk of `push_back`: `while (*cur != nullptr) cur = &(*cur)->next`,
then `*cur = new Node(data)`. -/
def push_back_walk (data : T) : List T → List T
  | [] => [data]
  | x :: rest => x :: push_back_walk data rest

/-- Member `push_back`. -/
def push_back (l : LinkedList T) (data : T) : LinkedList T :=
  ⟨push_back_walk data l.m_head, l.m_size + 1⟩

/-- Member `pop_front()`: throws on a null head; else the head data is
returned, the head node is deleted and `--m_size`. -/
def pop_front (l : LinkedList T) : Except Error (T × LinkedList T) :=
  match l.m_head with
  | [] => .error .list_is_empty
  | x :: rest => .ok (x, ⟨rest, l.m_size - 1⟩)

/-- The walk of `pop_back` from a node with data `x` and `next` chain `rest`:
`while ((*cur)->next != nullptr) cur = &(*cur)->next`, then the data of
`*cur` is taken and `*cur` becomes null.  Returns the data and the chain that
is left. -/
def pop_back_walk : T → List T → T × List T
  | x, [] => (x, [])
  | x, y :: rest => ((pop_back_walk y rest).1, x :: (pop_back_walk y rest).2)

/-- Member `pop_back()`. -/
def pop_back (l : LinkedList T) : Except Error (T × LinkedList T) :=
  match l.m_head with
  | [] => .error .list_is_empty
  | x :: rest => .ok ((pop_back_walk x rest).1, ⟨(pop_back_walk x rest).2, l.m_size - 1⟩)

/-- The walk of `operator[]`: `index` times `cur = cur->next`, then
`cur->data`; a null `cur` is dereferenced when the chain is too short. -/
def index_walk : List T → Nat → Except Error T
  | [], _ => .error .undefined_behaviour
  | x :: _, 0 => .ok x
  | _ :: rest, i + 1 => index_walk rest i

/-- Member `operator[](index)`: the bound test reads `m_size`. -/
def index (l : LinkedList T) (i : Nat) : Except Error T :=
  if i ≥ l.m_size then .error .list_index_out_of_bounds
  else index_walk l.m_head i

/-- The loop of `reverse()`: the first argument is the chain already turned
round, from `cur_first`; the second is the chain from `cur_second`. -/
def reverse_loop : List T → List T → List T
  | done, [] => done
  | done, y :: rest => reverse_loop (y :: done) rest

/-- Member `reverse()`: nothing for `m_size <= 1`; else the loop starts with
`cur_first = m_head` and `cur_second = m_head->next`, and at the end the old
head becomes the last node. -/
def reverse (l : LinkedList T) : Except Error (LinkedList T) :=
  if l.m_size ≤ 1 then .ok l
  else
    match l.m_head with
    | [] => .error .undefined_behaviour
    | x :: rest => .ok ⟨reverse_loop [x] rest, l.m_size⟩

/-- A client that applies prefix `operator++` a number of times. -/
def advance (l : LinkedList T) : Nat → iterator → Except Error iterator
  | 0, it => .ok it
  | n + 1, it =>
    match it.next l with
    | .error e => .error e
    | .ok it1 => advance l n it1

/-- A client loop `for (; it != l.end(); ++it) visit(*it)` from a handle, with
a step bound: the elements visited, in order. -/
def visit_from (l : LinkedList T) : Nat → iterator → Except Error (List T)
  | 0, _ => .error .loop_bound
  | fuel + 1, it =>
    if it = l.end_ then .ok []
    else
      match it.deref l with
      | .error e => .error e
      | .ok x =>
        match it.next l with
        | .error e => .error e
        | .ok it1 =>
          match visit_from l fuel it1 with
          | .error e => .error e
          | .ok xs => .ok (x :: xs)

end LinkedList

/-- The four calls that change a list at its ends. -/
inductive ListOp (T : Type) where
  | push_front (data : T)
  | push_back (data : T)
  | pop_front
  | pop_back
  deriving DecidableEq, Repr

namespace LinkedList

variable {T : Type}

/-- One call on a list: the list afterwards and the outcome, `none` for a
push, the popped element for a pop.  A pop that throws has not yet written
to the list. -/
def call (l : LinkedList T) : ListOp T → LinkedList T × Except Error (Option T)
  | .push_front data => (l.push_front data, .ok none)
  | .push_back data => (l.push_back data, .ok none)
  | .pop_front =>
    match l.pop_front with
    | .error e => (l, .error e)
    | .ok (x, l1) => (l1, .ok (some x))
  | .pop_back =>
    match l.pop_back with
    | .error e => (l, .error e)
    | .ok (x, l1) => (l1, .ok (some x))

/-- A client that makes the calls of a list in order: the list at the end and
the outcomes. -/
def run (l : LinkedList T) : List (ListOp T) → LinkedList T × List (Except Error (Option T))
  | [] => (l, [])
  | op :: ops => ((run (l.call op).1 ops).1, (l.call op).2 :: (run (l.call op).1 ops).2)

/-- Reference sequence for one call, after the words of the specification:
cons, append at the end, drop the first, drop the last; a pop of the empty
sequence is the empty-container error. -/
def reference_call (s : List T) : ListOp T → List T × Except Error (Option T)
  | .push_front data => (data :: s, .ok none)
  | .push_back data => (s ++ [data], .ok none)
  | .pop_front =>
    match s.head? with
    | none => (s, .error .list_is_empty)
    | some x => (s.tail, .ok (some x))
  | .pop_back =>
    match s.getLast? with
    | none => (s, .error .list_is_empty)
    | some x => (s.dropLast, .ok (some x))

/-- Reference sequence for a run of calls. -/
def reference_run (s : List T) : List (ListOp T) → List T × List (Except Error (Option T))
  | [] => (s, [])
  | op :: ops =>
    ((reference_run (reference_call s op).1 ops).1,
      (reference_call s op).2 :: (reference_run (reference_call s op).1 ops).2)

/-- Number of pushes among the calls. -/
def pushes : List (ListOp T) → Nat
  | [] => 0
  | .push_front _ :: ops => pushes ops + 1
  | .push_back _ :: ops => pushes ops + 1
  | _ :: ops => pushes ops

/-- Number of pops that returned an element. -/
def pops : List (Except Error (Option T)) → Nat
  | [] => 0
  | .ok (some _) :: outs => pops outs + 1
  | _ :: outs => pops outs

end LinkedList

/-- The nested struct `ChainHash::Entry`. -/
structure Entry (K V : Type) where
  key : K
  hash : Nat
  value : V
  deriving DecidableEq, Repr

/-- Class `ChainHash<K, T>`. -/
structure ChainHash (K V : Type) where
  size : Nat
  used_buckets : Nat
  capacity : Nat
  buckets : List (LinkedList (Entry K V))
  deriving DecidableEq, Repr

namespace ChainHash

variable {K V : Type}

/-- Constructor `ChainHash(initial_capacity)`: `capacity` default-constructed
lists, both counters zero. -/
def init (initial_capacity : Nat) : ChainHash K V :=
  ⟨0, 0, initial_capacity, List.replicate initial_capacity LinkedList.empty⟩

/-- The test `fill_factor() > maxFillFactor` of `set`.

`fill_factor()` is the binary64 quotient of `used_buckets` and `capacity`,
rounded to nearest, and `maxFillFactor` is the binary32 constant
`13421773 / 2 ^ 24`, converted exactly.  That constant has an even binary64
significand and its successor is `2 ^ -53` above it, so the rounded quotient
exceeds it exactly when the real quotient exceeds
`13421773 / 2 ^ 24 + 2 ^ -54`, that is when
`used_buckets * 2 ^ 54 > capacity * (13421773 * 2 ^ 30 + 1)`.
(Both operands are below `2 ^ 53`, so their conversion is exact.) -/
def fill_factor_exceeds (t : ChainHash K V) : Bool :=
  decide (t.capacity * (maxFillFactor_num * 1073741824 + 1)
    < t.used_buckets * 18014398509481984)

/-- Loop body of `rehash`: `new_buckets[entry.hash % new_capacity]
.push_front(entry)`. -/
def rehash_move (new_capacity : Nat)
    (new_buckets : List (LinkedList (Entry K V))) (entry : Entry K V) :
    Except Error (List (LinkedList (Entry K V))) :=
  if new_capacity = 0 then .error .undefined_behaviour
  else
    match new_buckets[entry.hash % new_capacity]? with
    | none => .error .undefined_behaviour
    | some b =>
      .ok (new_buckets.set (entry.hash % new_capacity) (b.push_front entry))

/-- Member `rehash()`: a fresh array of `capacity * 2` empty lists; the
entries of `buckets[0]`, ..., `buckets[capacity - 1]`, each chain from its
head, are pushed to the front of their new bucket. -/
def rehash (t : ChainHash K V) : Except Error (ChainHash K V) :=
  let new_capacity := t.capacity * 2
  let new_buckets : List (LinkedList (Entry K V)) :=
    List.replicate new_capacity LinkedList.empty
  let moved : Except Error (List (LinkedList (Entry K V))) :=
    (List.range t.capacity).foldlM
      (fun nb i =>
        match t.buckets[i]? with
        | none => .error .undefined_behaviour
        | some bucket => bucket.m_head.foldlM (rehash_move new_capacity) nb)
      new_buckets
  match moved with
  | .error e => .error e
  | .ok nb => .ok { t with buckets := nb, capacity := new_capacity }

/-- The search loop of `set`: the first entry with an equal key gets the new
value; `none` when the loop ends without a match. -/
def set_scan [DecidableEq K] (key : K) (value : V) :
    List (Entry K V) → Option (List (Entry K V))
  | [] => none
  | entry :: rest =>
    if entry.key = key then some ({ entry with value := value } :: rest)
    else (set_scan key value rest).map (fun r => entry :: r)

/-- The search loop of `get`: the value of the first entry with an equal
key. -/
def get_scan [DecidableEq K] (key : K) : List (Entry K V) → Option V
  | [] => none
  | entry :: rest => if entry.key = key then some entry.value else get_scan key rest

/-- The search loop of `contains`. -/
def contains_scan [DecidableEq K] (key : K) : List (Entry K V) → Bool
  | [] => false
  | el :: rest => if el.key = key then true else contains_scan key rest

/-- Member `set(key, value)`. -/
def set [DecidableEq K] (get_hash_code : K → Nat) (t : ChainHash K V) (key : K)
    (value : V) : Except Error (ChainHash K V) :=
  if t.capacity = 0 then .error .undefined_behaviour
  else
    let hash := get_hash_code key
    let index := hash % t.capacity
    match t.buckets[index]? with
    | none => .error .undefined_behaviour
    | some bucket =>
      match set_scan key value bucket.m_head with
      | some chain => .ok { t with buckets := t.buckets.set index { bucket with m_head := chain } }
      | none =>
        let bucket1 := bucket.push_front ⟨key, hash, value⟩
        let t1 : ChainHash K V :=
          { t with buckets := t.buckets.set index bucket1, size := t.size + 1 }
        let t2 : ChainHash K V :=
          if bucket1.size = 1 then { t1 with used_buckets := t1.used_buckets + 1 } else t1
        if bucket1.size > maxColision ∨ t2.fill_factor_exceeds = true then t2.rehash
        else .ok t2

/-- Member `get(key)`. -/
def get [DecidableEq K] (get_hash_code : K → Nat) (t : ChainHash K V) (key : K) :
    Except Error V :=
  if t.capacity = 0 then .error .undefined_behaviour
  else
    match t.buckets[get_hash_code key % t.capacity]? with
    | none => .error .undefined_behaviour
    | some bucket =>
      match get_scan key bucket.m_head with
      | some value => .ok value
      | none => .error .key_not_found

/-- The iterator loop of `remove`, from the position `it`, with a step
bound. -/
def remove_loop [DecidableEq K] (key : K) (bucket : LinkedList (Entry K V)) :
    Nat → iterator → Except Error (Bool × LinkedList (Entry K V))
  | 0, _ => .error .loop_bound
  | fuel + 1, it =>
    if it = bucket.end_ then .ok (false, bucket)
    else
      match it.deref bucket with
      | .error e => .error e
      | .ok entry =>
        if entry.key = key then
          match bucket.remove it with
          | .error e => .error e
          | .ok b => .ok (true, b)
        else
          match it.next bucket with
          | .error e => .error e
          | .ok it1 => remove_loop key bucket fuel it1

/-- Step bound given to `remove_loop`: one test per node and the final test
against `end()`. -/
def remove_loop_fuel (bucket : LinkedList (Entry K V)) : Nat :=
  bucket.m_head.length + 1

/-- Member `remove(key)`: returns the flag and the table afterwards. -/
def remove [DecidableEq K] (get_hash_code : K → Nat) (t : ChainHash K V) (key : K) :
    Except Error (Bool × ChainHash K V) :=
  if t.capacity = 0 then .error .undefined_behaviour
  else
    let index := get_hash_code key % t.capacity
    match t.buckets[index]? with
    | none => .error .undefined_behaviour
    | some bucket =>
      match remove_loop key bucket (remove_loop_fuel bucket) bucket.begin with
      | .error e => .error e
      | .ok (found, b) => .ok (found, { t with buckets := t.buckets.set index b })

/-- Member `contains(key)`. -/
def contains [DecidableEq K] (get_hash_code : K → Nat) (t : ChainHash K V) (key : K) :
    Except Error Bool :=
  if t.capacity = 0 then .error .undefined_behaviour
  else
    match t.buckets[get_hash_code key % t.capacity]? with
    | none => .error .undefined_behaviour
    | some bucket => .ok (contains_scan key bucket.m_head)

/-- Member `bucket_count()`. -/
def bucket_count (t : ChainHash K V) : Nat := t.capacity

/-- Member `bucket_size(index)`: `buckets[index].size()`, with no test of
`index`. -/
def bucket_size (t : ChainHash K V) (index : Nat) : Except Error Nat :=
  match t.buckets[index]? with
  | none => .error .undefined_behaviour
  | some bucket => .ok bucket.size

/-- Member `begin(index)`. -/
def begin (t : ChainHash K V) (index : Nat) : Except Error iterator :=
  if index ≥ t.capacity then .error .bucket_index_out_of_bounds
  else
    match t.buckets[index]? with
    | none => .error .undefined_behaviour
    | some bucket => .ok bucket.begin

/-- Member `end(index)`. -/
def end_ (t : ChainHash K V) (index : Nat) : Except Error iterator :=
  if index ≥ t.capacity then .error .bucket_index_out_of_bounds
  else
    match t.buckets[index]? with
    | none => .error .undefined_behaviour
    | some bucket => .ok bucket.end_


/-! Vocabulary of the specification: stored entries, the representation
invariant, reachable states, and the concrete tables used as examples. -/

/-- All stored entries: the chains of `buckets[0]`, `buckets[1]`, ... one
after the other. -/
def entries (t : ChainHash K V) : List (Entry K V) :=
  (t.buckets.map (fun b => b.m_head)).flatten

/-- Bucket `j` of an array of `n` buckets after the entries `es` were pushed,
in this order, to the front of the bucket with index `hash % n`: the entries
of `es` that belong to `j`, last pushed first, in front of the old chain. -/
def moved_bucket (n j : Nat) (es : List (Entry K V)) (b : LinkedList (Entry K V)) :
    LinkedList (Entry K V) :=
  ⟨(es.filter (fun e => decide (e.hash % n = j))).reverse ++ b.m_head,
    b.m_size + (es.filter (fun e => decide (e.hash % n = j))).length⟩

/-- Number of buckets whose `size()` is not zero. -/
def nonempty_buckets (t : ChainHash K V) : Nat :=
  t.buckets.countP (fun b => decide (b.size ≠ 0))

/-- Representation invariant of a table with a positive number of buckets:
the array has `capacity` lists, each list counter equals the length of its
chain, every entry caches the hash of its key and lies in the bucket with
index `hash % capacity`, and no chain holds a key twice. -/
structure WF (get_hash_code : K → Nat) (t : ChainHash K V) : Prop where
  capacity_pos : 0 < t.capacity
  length_eq : t.buckets.length = t.capacity
  size_eq : ∀ b ∈ t.buckets, b.m_size = b.m_head.length
  placed : ∀ i b, t.buckets[i]? = some b → ∀ e ∈ b.m_head,
    e.hash = get_hash_code e.key ∧ e.hash % t.capacity = i
  nodup : ∀ b ∈ t.buckets, (b.m_head.map Entry.key).Nodup

/-- States reachable from `ChainHash(initial_capacity)` by calls of `set` and
`remove` that return. -/
inductive Reachable [DecidableEq K] (get_hash_code : K → Nat) (initial_capacity : Nat) :
    ChainHash K V → Prop
  | init : Reachable get_hash_code initial_capacity (init initial_capacity)
  | set {t t1 : ChainHash K V} (key : K) (value : V) :
      Reachable get_hash_code initial_capacity t →
      set get_hash_code t key value = .ok t1 →
      Reachable get_hash_code initial_capacity t1
  | remove {t t1 : ChainHash K V} (key : K) (found : Bool) :
      Reachable get_hash_code initial_capacity t →
      remove get_hash_code t key = .ok (found, t1) →
      Reachable get_hash_code initial_capacity t1

/-- States reachable from `ChainHash(initial_capacity)` by calls of `set`
alone. -/
inductive ReachableBySet [DecidableEq K] (get_hash_code : K → Nat)
    (initial_capacity : Nat) : ChainHash K V → Prop
  | init : ReachableBySet get_hash_code initial_capacity (init initial_capacity)
  | set {t t1 : ChainHash K V} (key : K) (value : V) :
      ReachableBySet get_hash_code initial_capacity t →
      set get_hash_code t key value = .ok t1 →
      ReachableBySet get_hash_code initial_capacity t1

/-- A client that calls `set` for each pair of a list, in order. -/
def set_all [DecidableEq K] (get_hash_code : K → Nat) :
    ChainHash K V → List (K × V) → Except Error (ChainHash K V)
  | t, [] => .ok t
  | t, (key, value) :: rest =>
    match set get_hash_code t key value with
    | .error e => .error e
    | .ok t1 => set_all get_hash_code t1 rest

/-- The table `ChainHash<int, int>(8)` after `set(1, 1)`, with the identity
as hash. -/
def table_one_key : ChainHash Nat Nat :=
  ⟨1, 1, 8, [LinkedList.empty, ⟨[⟨1, 1, 1⟩], 1⟩, LinkedList.empty, LinkedList.empty,
    LinkedList.empty, LinkedList.empty, LinkedList.empty, LinkedList.empty]⟩

/-- The table `table_one_key` after `remove(1)`. -/
def table_key_removed : ChainHash Nat Nat :=
  ⟨1, 1, 8, [LinkedList.empty, ⟨[], 0⟩, LinkedList.empty, LinkedList.empty,
    LinkedList.empty, LinkedList.empty, LinkedList.empty, LinkedList.empty]⟩

/-- The table `ChainHash<int, int>(8)` after `set(0, 0)`, `set(8, 8)` and
`set(16, 16)`: three keys in bucket `0`. -/
def table_three_colliding : ChainHash Nat Nat :=
  ⟨3, 1, 8, [⟨[⟨16, 16, 16⟩, ⟨8, 8, 8⟩, ⟨0, 0, 0⟩], 3⟩, LinkedList.empty, LinkedList.empty,
    LinkedList.empty, LinkedList.empty, LinkedList.empty, LinkedList.empty, LinkedList.empty]⟩

/-- The table `table_three_colliding` after `set(24, 24)`, which rehashes to
sixteen buckets. -/
def table_four_colliding : ChainHash Nat Nat :=
  ⟨4, 1, 16, [⟨[⟨0, 0, 0⟩, ⟨16, 16, 16⟩], 2⟩, LinkedList.empty, LinkedList.empty,
    LinkedList.empty, LinkedList.empty, LinkedList.empty, LinkedList.empty, LinkedList.empty,
    ⟨[⟨8, 8, 8⟩, ⟨24, 24, 24⟩], 2⟩, LinkedList.empty, LinkedList.empty, LinkedList.empty,
    LinkedList.empty, LinkedList.empty, LinkedList.empty, LinkedList.empty]⟩


/-- The table with `c` buckets that holds the keys `0, ..., n - 1`, each with
itself as value and as cached hash, one per bucket, and whose counters are
both `n`. -/
def seq_table (c n : Nat) : ChainHash Nat Nat :=
  ⟨n, n, c, (List.range c).map
    (fun i => if i < n then ⟨[⟨i, i, i⟩], 1⟩ else LinkedList.empty)⟩

/-- The pairs `(n, n), (n + 1, n + 1), ...`, `m` of them. -/
def seq_pairs (n m : Nat) : List (Nat × Nat) :=
  (List.range' n m).map (fun i => (i, i))

/-- The test `fill_factor() > maxFillFactor` on the two numbers it reads, see
`fill_factor_exceeds`. -/
def load_exceeds (used_buckets capacity : Nat) : Bool :=
  decide (capacity * (maxFillFactor_num * 1073741824 + 1) < used_buckets * 18014398509481984)

/-- The table `ChainHash<int, int>(8)` after `set(0, 0)`, `set(1, 1)` and
`set(2, 2)` when every key has the hash `0`. -/
def table_same_hash_three : ChainHash Nat Nat :=
  ⟨3, 1, 8, [⟨[⟨2, 0, 2⟩, ⟨1, 0, 1⟩, ⟨0, 0, 0⟩], 3⟩, LinkedList.empty, LinkedList.empty,
    LinkedList.empty, LinkedList.empty, LinkedList.empty, LinkedList.empty, LinkedList.empty]⟩

/-- The table `table_same_hash_three` after `set(3, 3)`: one rehash, and
still one chain, now of four entries. -/
def table_same_hash_four : ChainHash Nat Nat :=
  ⟨4, 1, 16, [⟨[⟨0, 0, 0⟩, ⟨1, 0, 1⟩, ⟨2, 0, 2⟩, ⟨3, 0, 3⟩], 4⟩, LinkedList.empty,
    LinkedList.empty, LinkedList.empty, LinkedList.empty, LinkedList.empty, LinkedList.empty,
    LinkedList.empty, LinkedList.empty, LinkedList.empty, LinkedList.empty, LinkedList.empty,
    LinkedList.empty, LinkedList.empty, LinkedList.empty, LinkedList.empty]⟩

/-! Lemmas on the bucket array and on `rehash`. -/

section Buckets

theorem moved_bucket_nil (n j : Nat) (b : LinkedList (Entry K V)) :
    moved_bucket n j [] b = b := by
  simp [moved_bucket]

theorem moved_bucket_append (n j : Nat) (es1 es2 : List (Entry K V))
    (b : LinkedList (Entry K V)) :
    moved_bucket n j es2 (moved_bucket n j es1 b) = moved_bucket n j (es1 ++ es2) b := by
  simp [moved_bucket, List.filter_append, Nat.add_assoc]

theorem rehash_move_fold (n : Nat) (hn : 0 < n) (es : List (Entry K V))
    (nb : List (LinkedList (Entry K V))) (hlen : nb.length = n) :
    ∃ nb1, es.foldlM (rehash_move n) nb = .ok nb1 ∧ nb1.length = n ∧
      ∀ j, nb1[j]? = (nb[j]?).map (moved_bucket n j es) := by
  induction es generalizing nb with
  | nil =>
    refine ⟨nb, rfl, hlen, ?_⟩
    intro j
    cases h : nb[j]? <;> simp [moved_bucket_nil]
  | cons e es ih =>
    have hidx : e.hash % n < nb.length := by rw [hlen]; exact Nat.mod_lt _ hn
    have hget : nb[e.hash % n]? = some (nb[e.hash % n]) := List.getElem?_eq_getElem hidx
    have hstep : rehash_move n nb e =
        .ok (nb.set (e.hash % n) ((nb[e.hash % n]).push_front e)) := by
      simp [rehash_move, Nat.pos_iff_ne_zero.mp hn, hget]
    obtain ⟨nb1, h1, h2, h3⟩ := ih (nb.set (e.hash % n) ((nb[e.hash % n]).push_front e))
      (by simp [hlen])
    refine ⟨nb1, ?_, h2, ?_⟩
    · rw [List.foldlM_cons, hstep]
      exact h1
    · intro j
      rw [h3 j, List.getElem?_set]
      by_cases hj : e.hash % n = j
      · subst hj
        simp [hidx, hget, moved_bucket, LinkedList.push_front]
        omega
      · simp only [hj, if_false]
        cases h : nb[j]? with
        | none => simp
        | some b => simp [moved_bucket, hj]

theorem rehash_outer_fold (n : Nat) (hn : 0 < n) (L : List (LinkedList (Entry K V)))
    (nb : List (LinkedList (Entry K V))) (hlen : nb.length = n) :
    ∃ nb1, L.foldlM (fun acc (b : LinkedList (Entry K V)) => b.m_head.foldlM (rehash_move n) acc) nb
        = .ok nb1 ∧ nb1.length = n ∧
      ∀ j, nb1[j]? = (nb[j]?).map (moved_bucket n j (L.map (fun b => b.m_head)).flatten) := by
  induction L generalizing nb with
  | nil =>
    refine ⟨nb, rfl, hlen, ?_⟩
    intro j
    cases h : nb[j]? <;> simp [moved_bucket_nil]
  | cons b L ih =>
    obtain ⟨nb1, h1, h2, h3⟩ := rehash_move_fold n hn b.m_head nb hlen
    obtain ⟨nb2, k1, k2, k3⟩ := ih nb1 h2
    refine ⟨nb2, ?_, k2, ?_⟩
    · rw [List.foldlM_cons, h1]
      exact k1
    · intro j
      rw [k3 j, h3 j]
      cases h : nb[j]? with
      | none => simp
      | some b0 => simp [moved_bucket_append]

theorem range_fold_eq (L pre : List (LinkedList (Entry K V)))
    (f : List (LinkedList (Entry K V)) → LinkedList (Entry K V) →
      Except Error (List (LinkedList (Entry K V))))
    (nb : List (LinkedList (Entry K V))) :
    (List.range' pre.length L.length).foldlM
      (fun acc i =>
        match (pre ++ L)[i]? with
        | none => .error .undefined_behaviour
        | some bucket => f acc bucket) nb
    = L.foldlM f nb := by
  induction L generalizing pre nb with
  | nil => simp
  | cons b L ih =>
    have h0 : (pre ++ b :: L)[pre.length]? = some b := by
      rw [List.getElem?_append_right (Nat.le_refl _)]
      simp
    have := ih (pre ++ [b])
    simp only [List.length_append, List.length_singleton, List.append_assoc,
      List.singleton_append] at this
    simp only [List.length_cons, List.range'_succ, List.foldlM_cons, h0]
    congr 1
    funext acc
    exact this acc

theorem mem_entries_iff (t : ChainHash K V) (e : Entry K V) :
    e ∈ t.entries ↔ ∃ (i : Nat) (b : LinkedList (Entry K V)), t.buckets[i]? = some b ∧ e ∈ b.m_head := by
  simp only [entries, List.mem_flatten, List.mem_map]
  constructor
  · rintro ⟨l, ⟨b, hb, rfl⟩, he⟩
    obtain ⟨i, hi⟩ := List.mem_iff_getElem?.mp hb
    exact ⟨i, b, hi, he⟩
  · rintro ⟨i, b, hi, he⟩
    exact ⟨b.m_head, ⟨b, List.mem_iff_getElem?.mpr ⟨i, hi⟩, rfl⟩, he⟩

/-- On a table with a positive capacity and an array of that length, `rehash`
returns: the capacity doubles, both counters are kept, and bucket `j` holds
the entries with `hash % (2 * capacity) = j`, last moved first. -/
theorem rehash_ok (t : ChainHash K V) (hcap : 0 < t.capacity)
    (hlen : t.buckets.length = t.capacity) :
    ∃ t1, t.rehash = .ok t1 ∧ t1.capacity = t.capacity * 2 ∧ t1.size = t.size ∧
      t1.used_buckets = t.used_buckets ∧ t1.buckets.length = t.capacity * 2 ∧
      ∀ j, j < t.capacity * 2 →
        t1.buckets[j]? = some (moved_bucket (t.capacity * 2) j t.entries LinkedList.empty) := by
  have hn : 0 < t.capacity * 2 := by omega
  obtain ⟨nb, h1, h2, h3⟩ := rehash_outer_fold (t.capacity * 2) hn t.buckets
    (List.replicate (t.capacity * 2) LinkedList.empty) (by simp)
  have hfold := range_fold_eq t.buckets []
    (fun acc (b : LinkedList (Entry K V)) => b.m_head.foldlM (rehash_move (t.capacity * 2)) acc)
    (List.replicate (t.capacity * 2) LinkedList.empty)
  simp only [List.length_nil, List.nil_append, hlen, ← List.range_eq_range'] at hfold
  refine ⟨{ t with buckets := nb, capacity := t.capacity * 2 }, ?_, rfl, rfl, rfl, h2, ?_⟩
  · unfold rehash
    simp only
    rw [hfold, h1]
  · intro j hj
    simp only [h3 j, List.getElem?_replicate, hj, if_true, Option.map_some', entries]

theorem rehash_fields {t t1 : ChainHash K V} (h : t.rehash = .ok t1) :
    t1.capacity = t.capacity * 2 ∧ t1.size = t.size ∧ t1.used_buckets = t.used_buckets := by
  unfold rehash at h
  simp only at h
  split at h
  · cases h
  · cases h
    exact ⟨rfl, rfl, rfl⟩

theorem nodup_entries {get_hash_code : K → Nat} {t : ChainHash K V}
    (h : WF get_hash_code t) : (t.entries.map Entry.key).Nodup := by
  have hmap : t.entries.map Entry.key =
      (t.buckets.map (fun b => b.m_head.map Entry.key)).flatten := by
    simp [entries, List.map_flatten, List.map_map, Function.comp_def]
  rw [hmap, List.nodup_flatten]
  constructor
  · intro l hl
    obtain ⟨b, hb, rfl⟩ := List.mem_map.mp hl
    exact h.nodup b hb
  · rw [List.pairwise_iff_getElem]
    intro i j hi hj hij
    simp only [List.getElem_map]
    simp only [List.length_map] at hi hj
    intro k hki hkj
    obtain ⟨e1, he1, hk1⟩ := List.mem_map.mp hki
    obtain ⟨e2, he2, hk2⟩ := List.mem_map.mp hkj
    have p1 := h.placed i _ (List.getElem?_eq_getElem hi) e1 he1
    have p2 := h.placed j _ (List.getElem?_eq_getElem hj) e2 he2
    have : i = j := by
      rw [← p1.2, ← p2.2, p1.1, p2.1, hk1, hk2]
    omega

/-- A rehash keeps the invariant and the set of stored entries. -/
theorem WF_rehash {get_hash_code : K → Nat} {t t1 : ChainHash K V}
    (h : WF get_hash_code t) (hr : t.rehash = .ok t1) :
    WF get_hash_code t1 ∧ (∀ e, e ∈ t1.entries ↔ e ∈ t.entries) := by
  obtain ⟨t2, h1, hc, _, _, hl, hb⟩ := rehash_ok t h.capacity_pos h.length_eq
  rw [hr] at h1
  cases h1
  have hbucket : ∀ i b, t1.buckets[i]? = some b →
      b = moved_bucket (t.capacity * 2) i t.entries LinkedList.empty ∧ i < t.capacity * 2 := by
    intro i b hib
    have hi : i < t.capacity * 2 := by
      rw [← hl]
      exact (List.getElem?_eq_some.mp hib).1
    rw [hb i hi] at hib
    exact ⟨(Option.some.inj hib).symm, hi⟩
  have hmem : ∀ i b, t1.buckets[i]? = some b → ∀ e, e ∈ b.m_head ↔
      (e ∈ t.entries ∧ e.hash % (t.capacity * 2) = i) := by
    intro i b hib e
    rw [(hbucket i b hib).1]
    simp [moved_bucket, LinkedList.empty]
  refine ⟨⟨by have := h.capacity_pos; omega, by rw [hl, hc], ?_, ?_, ?_⟩, ?_⟩
  · intro b hb1
    obtain ⟨i, hi⟩ := List.mem_iff_getElem?.mp hb1
    rw [(hbucket i b hi).1]
    simp [moved_bucket, LinkedList.empty]
  · intro i b hib e he
    have he1 := (hmem i b hib e).mp he
    obtain ⟨i0, b0, hb0, he0⟩ := (mem_entries_iff t e).mp he1.1
    refine ⟨(h.placed i0 b0 hb0 e he0).1, ?_⟩
    rw [hc]
    exact he1.2
  · intro b hb1
    obtain ⟨i, hi⟩ := List.mem_iff_getElem?.mp hb1
    rw [(hbucket i b hi).1]
    simp only [moved_bucket, LinkedList.empty, List.append_nil, List.map_reverse,
      List.nodup_reverse]
    exact (nodup_entries h).sublist ((List.filter_sublist _).map _)
  · intro e
    rw [mem_entries_iff t1 e]
    constructor
    · rintro ⟨i, b, hib, he⟩
      exact ((hmem i b hib e).mp he).1
    · intro he
      have hi : e.hash % (t.capacity * 2) < t.capacity * 2 :=
        Nat.mod_lt _ (by have := h.capacity_pos; omega)
      refine ⟨e.hash % (t.capacity * 2), _, hb _ hi, ?_⟩
      simp [moved_bucket, LinkedList.empty, he]

theorem bucket_for_key {get_hash_code : K → Nat} {t : ChainHash K V}
    (h : WF get_hash_code t) (k : K) :
    ∃ b, t.buckets[get_hash_code k % t.capacity]? = some b ∧ b ∈ t.buckets ∧
      ∀ e : Entry K V, e.key = k → (e ∈ t.entries ↔ e ∈ b.m_head) := by
  have hi : get_hash_code k % t.capacity < t.buckets.length := by
    rw [h.length_eq]; exact Nat.mod_lt _ h.capacity_pos
  have hget := List.getElem?_eq_getElem hi
  refine ⟨_, hget, List.getElem_mem hi, ?_⟩
  intro e hk
  rw [mem_entries_iff]
  constructor
  · rintro ⟨i, b, hib, he⟩
    have p := h.placed i b hib e he
    have : i = get_hash_code k % t.capacity := by rw [← p.2, p.1, hk]
    subst this
    rw [hget] at hib
    cases hib
    exact he
  · intro he
    exact ⟨_, _, hget, he⟩

theorem mem_entries_set_bucket {get_hash_code : K → Nat} {t t1 : ChainHash K V}
    (h : WF get_hash_code t) (k : K) (b b1 : LinkedList (Entry K V))
    (hb : t.buckets[get_hash_code k % t.capacity]? = some b)
    (hbk : t1.buckets = t.buckets.set (get_hash_code k % t.capacity) b1)
    (P : Entry K V → Prop)
    (hb1 : ∀ e, e ∈ b1.m_head ↔ (e ∈ b.m_head ∧ e.key ≠ k) ∨ P e) (e : Entry K V) :
    e ∈ t1.entries ↔ (e ∈ t.entries ∧ e.key ≠ k) ∨ P e := by
  have hi : get_hash_code k % t.capacity < t.buckets.length :=
    (List.getElem?_eq_some.mp hb).1
  rw [mem_entries_iff, mem_entries_iff, hbk]
  constructor
  · rintro ⟨i, b0, hib, he⟩
    rw [List.getElem?_set] at hib
    by_cases hii : get_hash_code k % t.capacity = i
    · simp only [hii, if_true] at hib
      split at hib
      · cases hib
        rcases (hb1 e).mp he with ⟨h1, h2⟩ | h1
        · exact Or.inl ⟨⟨_, b, hb, h1⟩, h2⟩
        · exact Or.inr h1
      · cases hib
    · simp only [hii, if_false] at hib
      refine Or.inl ⟨⟨i, b0, hib, he⟩, ?_⟩
      intro hk
      apply hii
      have p := h.placed i b0 hib e he
      rw [← p.2, p.1, hk]
  · rintro (⟨⟨i, b0, hib, he⟩, hk⟩ | hP)
    · by_cases hii : get_hash_code k % t.capacity = i
      · subst hii
        refine ⟨get_hash_code k % t.capacity, b1, ?_, ?_⟩
        · rw [List.getElem?_set]; simp [hi]
        · rw [hb] at hib
          cases hib
          exact (hb1 e).mpr (Or.inl ⟨he, hk⟩)
      · refine ⟨i, b0, ?_, he⟩
        rw [List.getElem?_set]; simp [hii, hib]
    · refine ⟨get_hash_code k % t.capacity, b1, ?_, (hb1 e).mpr (Or.inr hP)⟩
      rw [List.getElem?_set]; simp [hi]

theorem WF_set_bucket {get_hash_code : K → Nat} {t t1 : ChainHash K V}
    (h : WF get_hash_code t) (i : Nat) (b1 : LinkedList (Entry K V))
    (hcap : t1.capacity = t.capacity)
    (hbk : t1.buckets = t.buckets.set i b1)
    (hsize : b1.m_size = b1.m_head.length)
    (hplaced : ∀ e ∈ b1.m_head, e.hash = get_hash_code e.key ∧ e.hash % t.capacity = i)
    (hnodup : (b1.m_head.map Entry.key).Nodup) :
    WF get_hash_code t1 := by
  have hin : ∀ b0 ∈ t1.buckets, b0 = b1 ∨ b0 ∈ t.buckets := by
    intro b0 hb0
    rw [hbk] at hb0
    rcases List.mem_or_eq_of_mem_set hb0 with h1 | h1
    · exact Or.inr h1
    · exact Or.inl h1
  refine ⟨by rw [hcap]; exact h.capacity_pos, by rw [hbk, hcap, List.length_set, h.length_eq],
    ?_, ?_, ?_⟩
  · intro b0 hb0
    rcases hin b0 hb0 with h1 | h1
    · rw [h1]; exact hsize
    · exact h.size_eq b0 h1
  · intro j b0 hjb e he
    rw [hcap]
    rw [hbk, List.getElem?_set] at hjb
    by_cases hij : i = j
    · simp only [hij, if_true] at hjb
      split at hjb
      · cases hjb
        rw [← hij]
        exact hplaced e he
      · cases hjb
    · simp only [hij, if_false] at hjb
      exact h.placed j b0 hjb e he
  · intro b0 hb0
    rcases hin b0 hb0 with h1 | h1
    · rw [h1]; exact hnodup
    · exact h.nodup b0 h1

theorem WF_init (get_hash_code : K → Nat) (c0 : Nat) (hc0 : 0 < c0) :
    WF get_hash_code (init c0 : ChainHash K V) := by
  refine ⟨hc0, by simp [init], ?_, ?_, ?_⟩
  · intro b hb
    simp only [init, List.mem_replicate] at hb
    rw [hb.2]; rfl
  · intro i b hb e he
    have := List.mem_iff_getElem?.mpr ⟨i, hb⟩
    simp only [init, List.mem_replicate] at this
    rw [this.2] at he
    simp [LinkedList.empty] at he
  · intro b hb
    simp only [init, List.mem_replicate] at hb
    rw [hb.2]; simp [LinkedList.empty]

theorem countP_set_le (p : LinkedList (Entry K V) → Bool) (L : List (LinkedList (Entry K V)))
    (i : Nat) (b a : LinkedList (Entry K V)) (hb : L[i]? = some b) :
    (L.set i a).countP p + (if p b = true then 1 else 0) =
      L.countP p + (if p a = true then 1 else 0) := by
  obtain ⟨hi, hbe⟩ := List.getElem?_eq_some.mp hb
  rw [List.countP_set p L i a hi, hbe]
  have := List.boole_getElem_le_countP p L i hi
  rw [hbe] at this
  omega

end Buckets

/-! Lemmas on the search loops and on `set`, `get`, `remove`, `contains`. -/

section Operations

variable [DecidableEq K]

theorem get_scan_eq_none_iff (key : K) (l : List (Entry K V)) :
    get_scan key l = none ↔ ∀ e ∈ l, e.key ≠ key := by
  induction l with
  | nil => simp [get_scan]
  | cons a l ih =>
    by_cases h : a.key = key
    · simp [get_scan, h]
    · simp [get_scan, h, ih]

theorem get_scan_eq_some_iff (key : K) (v : V) (l : List (Entry K V))
    (hnd : (l.map Entry.key).Nodup) :
    get_scan key l = some v ↔ ∃ e ∈ l, e.key = key ∧ e.value = v := by
  induction l with
  | nil => simp [get_scan]
  | cons a l ih =>
    rw [List.map_cons, List.nodup_cons] at hnd
    by_cases h : a.key = key
    · simp only [get_scan, h, if_true, Option.some.injEq, List.mem_cons]
      constructor
      · intro hv
        exact ⟨a, Or.inl rfl, h, hv⟩
      · rintro ⟨e, he | he, hk, hv⟩
        · rw [← he]; exact hv
        · exfalso
          apply hnd.1
          rw [h, ← hk]
          exact List.mem_map_of_mem _ he
    · simp only [get_scan, h, if_false, ih hnd.2, List.mem_cons]
      constructor
      · rintro ⟨e, he, hk, hv⟩
        exact ⟨e, Or.inr he, hk, hv⟩
      · rintro ⟨e, he | he, hk, hv⟩
        · subst he; exact absurd hk h
        · exact ⟨e, he, hk, hv⟩

theorem contains_scan_eq_true_iff (key : K) (l : List (Entry K V)) :
    contains_scan key l = true ↔ ∃ e ∈ l, e.key = key := by
  induction l with
  | nil => simp [contains_scan]
  | cons a l ih =>
    by_cases h : a.key = key
    · simp [contains_scan, h]
    · simp [contains_scan, h, ih]

theorem contains_scan_eq_isSome (key : K) (l : List (Entry K V)) :
    contains_scan key l = (get_scan key l).isSome := by
  induction l with
  | nil => simp [contains_scan, get_scan]
  | cons a l ih =>
    by_cases h : a.key = key
    · simp [contains_scan, get_scan, h]
    · simp [contains_scan, get_scan, h, ih]

theorem set_scan_eq_none_iff (key : K) (v : V) (l : List (Entry K V)) :
    set_scan key v l = none ↔ ∀ e ∈ l, e.key ≠ key := by
  induction l with
  | nil => simp [set_scan]
  | cons a l ih =>
    by_cases h : a.key = key
    · simp [set_scan, h]
    · simp [set_scan, h, ih]

theorem set_scan_map_key (key : K) (v : V) (l l1 : List (Entry K V))
    (h : set_scan key v l = some l1) : l1.map Entry.key = l.map Entry.key := by
  induction l generalizing l1 with
  | nil => simp [set_scan] at h
  | cons a l ih =>
    by_cases hk : a.key = key
    · subst hk
      simp only [set_scan, if_true, Option.some.injEq] at h
      subst h
      simp
    · simp only [set_scan, hk, if_false, Option.map_eq_some'] at h
      obtain ⟨r, hr, rfl⟩ := h
      simp [ih r hr]

theorem set_scan_length (key : K) (v : V) (l l1 : List (Entry K V))
    (h : set_scan key v l = some l1) : l1.length = l.length := by
  have := congrArg List.length (set_scan_map_key key v l l1 h)
  simpa using this

theorem set_scan_mem (key : K) (v : V) (l l1 : List (Entry K V))
    (hnd : (l.map Entry.key).Nodup)
    (h : set_scan key v l = some l1) (e1 : Entry K V) :
    e1 ∈ l1 ↔ (e1 ∈ l ∧ e1.key ≠ key) ∨
      (∃ e ∈ l, e.key = key ∧ e1 = { e with value := v }) := by
  induction l generalizing l1 with
  | nil => simp [set_scan] at h
  | cons a l ih =>
    rw [List.map_cons, List.nodup_cons] at hnd
    by_cases hk : a.key = key
    · subst hk
      simp only [set_scan, if_true, Option.some.injEq] at h
      subst h
      have hl : ∀ e ∈ l, e.key ≠ a.key := by
        intro e he hek
        apply hnd.1
        rw [← hek]
        exact List.mem_map_of_mem _ he
      simp only [List.mem_cons]
      constructor
      · rintro (h1 | h1)
        · exact Or.inr ⟨a, Or.inl rfl, rfl, h1⟩
        · exact Or.inl ⟨Or.inr h1, hl _ h1⟩
      · rintro (⟨h1 | h1, h2⟩ | ⟨e, h1 | h1, h2, h3⟩)
        · subst h1; exact absurd rfl h2
        · exact Or.inr h1
        · subst h1; exact Or.inl h3
        · exact absurd h2 (hl _ h1)
    · simp only [set_scan, hk, if_false, Option.map_eq_some'] at h
      obtain ⟨r, hr, rfl⟩ := h
      simp only [List.mem_cons, ih r hnd.2 hr]
      constructor
      · rintro (h1 | ⟨h1, h2⟩ | ⟨e, h1, h2, h3⟩)
        · subst h1; exact Or.inl ⟨Or.inl rfl, hk⟩
        · exact Or.inl ⟨Or.inr h1, h2⟩
        · exact Or.inr ⟨e, Or.inr h1, h2, h3⟩
      · rintro (⟨h1 | h1, h2⟩ | ⟨e, h1 | h1, h2, h3⟩)
        · exact Or.inl h1
        · exact Or.inr (Or.inl ⟨h1, h2⟩)
        · subst h1; exact absurd h2 hk
        · exact Or.inr (Or.inr ⟨e, h1, h2, h3⟩)

theorem mem_eraseP_key (k : K) (l : List (Entry K V)) (hnd : (l.map Entry.key).Nodup)
    (e : Entry K V) :
    e ∈ l.eraseP (fun x => decide (x.key = k)) ↔ e ∈ l ∧ e.key ≠ k := by
  induction l with
  | nil => simp
  | cons a l ih =>
    rw [List.map_cons, List.nodup_cons] at hnd
    by_cases hk : a.key = k
    · have hl : ∀ x ∈ l, x.key ≠ k := by
        intro x hx hxk
        apply hnd.1
        rw [hk, ← hxk]
        exact List.mem_map_of_mem _ hx
      rw [List.eraseP_cons_of_pos (by simpa using hk)]
      simp only [List.mem_cons]
      constructor
      · intro h1
        exact ⟨Or.inr h1, hl e h1⟩
      · rintro ⟨h1 | h1, h2⟩
        · subst h1; exact absurd hk h2
        · exact h1
    · rw [List.eraseP_cons_of_neg (by simpa using hk)]
      simp only [List.mem_cons, ih hnd.2]
      constructor
      · rintro (h1 | ⟨h1, h2⟩)
        · subst h1; exact ⟨Or.inl rfl, hk⟩
        · exact ⟨Or.inr h1, h2⟩
      · rintro ⟨h1 | h1, h2⟩
        · exact Or.inl h1
        · exact Or.inr ⟨h1, h2⟩

theorem remove_loop_from (key : K) (n : Nat) (suf pre : List (Entry K V))
    (hsuf : suf ≠ []) :
    remove_loop key ⟨pre ++ suf, n⟩ (suf.length + 1) ⟨some pre.length⟩ =
      .ok (suf.any (fun e => decide (e.key = key)),
        ⟨pre ++ suf.eraseP (fun e => decide (e.key = key)),
          if suf.any (fun e => decide (e.key = key)) = true then n - 1 else n⟩) := by
  induction suf generalizing pre with
  | nil => exact absurd rfl hsuf
  | cons e rest ih =>
    have hne : (⟨some pre.length⟩ : iterator) ≠ LinkedList.end_ (⟨pre ++ e :: rest, n⟩ : LinkedList (Entry K V)) := by
      simp [LinkedList.end_]
    have hderef : iterator.deref (⟨pre ++ e :: rest, n⟩ : LinkedList (Entry K V)) ⟨some pre.length⟩ = .ok e := by
      have h0 : (pre ++ e :: rest)[pre.length]? = some e := by
        rw [List.getElem?_append_right (Nat.le_refl _)]
        simp
      simp [iterator.deref, h0]
    by_cases hk : e.key = key
    · simp [remove_loop, hne, hderef, hk, LinkedList.remove, List.eraseIdx_append_of_length_le]
    · cases rest with
      | nil =>
        simp [remove_loop, hne, hderef, hk, iterator.next, LinkedList.end_]
      | cons e2 rest2 =>
        have hnext : iterator.next (⟨pre ++ e :: e2 :: rest2, n⟩ : LinkedList (Entry K V)) ⟨some pre.length⟩
            = .ok ⟨some (pre ++ [e]).length⟩ := by
          simp [iterator.next]
        have := ih (pre ++ [e]) (by simp)
        simp only [List.append_assoc, List.singleton_append] at this
        rw [remove_loop]
        simp only [hne, if_false, hderef, hk, hnext]
        simp only [List.length_cons] at this ⊢
        rw [this]
        simp [hk, List.eraseP_cons]

/-- The iterator loop of `remove` never exhausts its step bound: started at
`begin()` it reports whether some entry has the key and unlinks the first such
entry. -/
theorem remove_loop_begin (key : K) (b : LinkedList (Entry K V)) :
    remove_loop key b (remove_loop_fuel b) b.begin =
      .ok (b.m_head.any (fun e => decide (e.key = key)),
        ⟨b.m_head.eraseP (fun e => decide (e.key = key)),
          if b.m_head.any (fun e => decide (e.key = key)) = true then b.m_size - 1
          else b.m_size⟩) := by
  obtain ⟨l, n⟩ := b
  cases l with
  | nil => simp [remove_loop, remove_loop_fuel, LinkedList.begin, LinkedList.end_]
  | cons e rest =>
    have := remove_loop_from key n (e :: rest) [] (by simp)
    simpa [remove_loop_fuel, LinkedList.begin] using this

/-- On a well-formed table `get` returns the value of the stored entry with the
key, or fails with key-not-found when no entry has the key. -/
theorem get_spec {get_hash_code : K → Nat} {t : ChainHash K V}
    (h : WF get_hash_code t) (k : K) :
    (∀ v, get get_hash_code t k = .ok v ↔ ∃ e ∈ t.entries, e.key = k ∧ e.value = v) ∧
    (get get_hash_code t k = .error .key_not_found ↔ ∀ e ∈ t.entries, e.key ≠ k) ∧
    ((∃ v, get get_hash_code t k = .ok v) ∨
      get get_hash_code t k = .error .key_not_found) := by
  obtain ⟨b, hb, hbm, hmem⟩ := bucket_for_key h k
  have hc : t.capacity ≠ 0 := Nat.pos_iff_ne_zero.mp h.capacity_pos
  have hget : get get_hash_code t k =
      match get_scan k b.m_head with
      | some value => .ok value
      | none => .error .key_not_found := by
    simp [get, hc, hb]
  rw [hget]
  cases hs : get_scan k b.m_head with
  | none =>
    have hn := (get_scan_eq_none_iff k b.m_head).mp hs
    have hall : ∀ e ∈ t.entries, e.key ≠ k := by
      intro e he hk
      exact hn e ((hmem e hk).mp he) hk
    refine ⟨?_, ?_, Or.inr rfl⟩
    · intro v
      simp only [reduceCtorEq, false_iff]
      rintro ⟨e, he, hk, _⟩
      exact hall e he hk
    · simp only [true_iff]
      exact hall
  | some v0 =>
    have hsome := fun v => get_scan_eq_some_iff k v b.m_head (h.nodup b hbm)
    refine ⟨?_, ?_, Or.inl ⟨v0, rfl⟩⟩
    · intro v
      simp only [Except.ok.injEq]
      rw [← Option.some_inj, ← hs, hsome v]
      constructor
      · rintro ⟨e, he, hk, hv⟩
        exact ⟨e, (hmem e hk).mpr he, hk, hv⟩
      · rintro ⟨e, he, hk, hv⟩
        exact ⟨e, (hmem e hk).mp he, hk, hv⟩
    · simp only [reduceCtorEq, false_iff]
      intro hall
      obtain ⟨e, he, hk, _⟩ := (hsome v0).mp hs
      exact hall e ((hmem e hk).mpr he) hk

/-- On a well-formed table `contains` returns whether an entry has the key. -/
theorem contains_spec {get_hash_code : K → Nat} {t : ChainHash K V}
    (h : WF get_hash_code t) (k : K) :
    ∃ c, contains get_hash_code t k = .ok c ∧ (c = true ↔ ∃ e ∈ t.entries, e.key = k) := by
  obtain ⟨b, hb, _, hmem⟩ := bucket_for_key h k
  have hc : t.capacity ≠ 0 := Nat.pos_iff_ne_zero.mp h.capacity_pos
  refine ⟨contains_scan k b.m_head, by simp [contains, hc, hb], ?_⟩
  rw [contains_scan_eq_true_iff]
  constructor
  · rintro ⟨e, he, hk⟩
    exact ⟨e, (hmem e hk).mpr he, hk⟩
  · rintro ⟨e, he, hk⟩
    exact ⟨e, (hmem e hk).mp he, hk⟩

/-- Two well-formed tables with the same entries for a key answer `get` and
`contains` for that key alike. -/
theorem lookup_congr {get_hash_code : K → Nat} {t t1 : ChainHash K V}
    (h : WF get_hash_code t) (h1 : WF get_hash_code t1) (k : K)
    (hsame : ∀ e : Entry K V, e.key = k → (e ∈ t1.entries ↔ e ∈ t.entries)) :
    get get_hash_code t1 k = get get_hash_code t k ∧
      contains get_hash_code t1 k = contains get_hash_code t k := by
  have hex : (∃ e ∈ t1.entries, e.key = k) ↔ (∃ e ∈ t.entries, e.key = k) := by
    constructor
    · rintro ⟨e, he, hk⟩; exact ⟨e, (hsame e hk).mp he, hk⟩
    · rintro ⟨e, he, hk⟩; exact ⟨e, (hsame e hk).mpr he, hk⟩
  constructor
  · obtain ⟨g1, g2, g3⟩ := get_spec h k
    obtain ⟨f1, f2, _⟩ := get_spec h1 k
    rcases g3 with ⟨v, hv⟩ | hv
    · rw [hv]
      obtain ⟨e, he, hk, hev⟩ := (g1 v).mp hv
      exact (f1 v).mpr ⟨e, (hsame e hk).mpr he, hk, hev⟩
    · rw [hv]
      apply f2.mpr
      intro e he hk
      exact g2.mp hv e ((hsame e hk).mp he) hk
  · obtain ⟨c, hc, hci⟩ := contains_spec h k
    obtain ⟨c1, hc1, hci1⟩ := contains_spec h1 k
    rw [hc, hc1]
    congr 1
    rw [Bool.eq_iff_iff, hci, hci1, hex]

theorem set_present {get_hash_code : K → Nat} {t : ChainHash K V} (k : K) (v : V)
    (b : LinkedList (Entry K V)) (chain : List (Entry K V))
    (hc : 0 < t.capacity)
    (hb : t.buckets[get_hash_code k % t.capacity]? = some b)
    (hs : set_scan k v b.m_head = some chain) :
    set get_hash_code t k v = .ok { t with
      buckets := t.buckets.set (get_hash_code k % t.capacity) { b with m_head := chain } } := by
  simp [set, Nat.pos_iff_ne_zero.mp hc, hb, hs]

theorem set_absent {get_hash_code : K → Nat} {t : ChainHash K V} (k : K) (v : V)
    (b : LinkedList (Entry K V))
    (hc : 0 < t.capacity)
    (hb : t.buckets[get_hash_code k % t.capacity]? = some b)
    (hs : set_scan k v b.m_head = none) :
    ∃ t2 : ChainHash K V, t2.capacity = t.capacity ∧
      t2.buckets = t.buckets.set (get_hash_code k % t.capacity)
        (b.push_front ⟨k, get_hash_code k, v⟩) ∧
      t2.size = t.size + 1 ∧
      t2.used_buckets = (if b.m_size + 1 = 1 then t.used_buckets + 1 else t.used_buckets) ∧
      set get_hash_code t k v =
        if b.m_size + 1 > maxColision ∨ t2.fill_factor_exceeds = true then t2.rehash
        else .ok t2 := by
  by_cases h1 : b.m_size + 1 = 1
  · refine ⟨{ t with
      buckets := t.buckets.set (get_hash_code k % t.capacity)
        (b.push_front ⟨k, get_hash_code k, v⟩),
      size := t.size + 1, used_buckets := t.used_buckets + 1 }, rfl, rfl, rfl, by simp [h1], ?_⟩
    simp [set, Nat.pos_iff_ne_zero.mp hc, hb, hs, LinkedList.push_front, LinkedList.size, h1]
  · refine ⟨{ t with
      buckets := t.buckets.set (get_hash_code k % t.capacity)
        (b.push_front ⟨k, get_hash_code k, v⟩),
      size := t.size + 1 }, rfl, rfl, rfl, by simp [h1], ?_⟩
    simp [set, Nat.pos_iff_ne_zero.mp hc, hb, hs, LinkedList.push_front, LinkedList.size, h1]

/-- On a well-formed table `set` returns a well-formed table whose entries are
the old entries with other keys and the entry for the new pair. -/
theorem set_spec {get_hash_code : K → Nat} {t : ChainHash K V}
    (h : WF get_hash_code t) (k : K) (v : V) :
    ∃ t1, set get_hash_code t k v = .ok t1 ∧ WF get_hash_code t1 ∧
      (∀ e, e ∈ t1.entries ↔ (e ∈ t.entries ∧ e.key ≠ k) ∨ e = ⟨k, get_hash_code k, v⟩) ∧
      (t1.capacity = t.capacity ∨ t1.capacity = t.capacity * 2) := by
  obtain ⟨b, hb, hbm, hmem⟩ := bucket_for_key h k
  have hpl := h.placed _ b hb
  cases hs : set_scan k v b.m_head with
  | some chain =>
    have hmemc := set_scan_mem k v b.m_head chain (h.nodup b hbm) hs
    have hb1 : ∀ e, e ∈ chain ↔ (e ∈ b.m_head ∧ e.key ≠ k) ∨ e = ⟨k, get_hash_code k, v⟩ := by
      intro e
      rw [hmemc e]
      constructor
      · rintro (h1 | ⟨e0, h1, h2, h3⟩)
        · exact Or.inl h1
        · right
          rw [h3, (hpl e0 h1).1, h2]
      · rintro (h1 | h1)
        · exact Or.inl h1
        · right
          have hex : ∃ e0 ∈ b.m_head, e0.key = k := by
            by_contra hcon
            have := (set_scan_eq_none_iff k v b.m_head).mpr
              (fun e0 he0 hk0 => hcon ⟨e0, he0, hk0⟩)
            rw [hs] at this
            cases this
          obtain ⟨e0, he0, hk0⟩ := hex
          refine ⟨e0, he0, hk0, ?_⟩
          rw [h1, (hpl e0 he0).1, hk0]
    refine ⟨_, set_present k v b chain h.capacity_pos hb hs, ?_, ?_, Or.inl rfl⟩
    · refine WF_set_bucket h (get_hash_code k % t.capacity) { b with m_head := chain } rfl rfl ?_ ?_ ?_
      · simp only
        rw [set_scan_length k v _ _ hs]
        exact h.size_eq b hbm
      · intro e he
        rcases (hb1 e).mp he with ⟨h1, _⟩ | h1
        · exact hpl e h1
        · rw [h1]; exact ⟨rfl, rfl⟩
      · simp only
        rw [set_scan_map_key k v _ _ hs]
        exact h.nodup b hbm
    · intro e
      exact mem_entries_set_bucket h k b { b with m_head := chain } hb rfl _ hb1 e
  | none =>
    have hno := (set_scan_eq_none_iff k v b.m_head).mp hs
    obtain ⟨t2, hcap, hbk, _, _, hset⟩ := set_absent k v b h.capacity_pos hb hs
    have hb1 : ∀ e, e ∈ (b.push_front ⟨k, get_hash_code k, v⟩).m_head ↔
        (e ∈ b.m_head ∧ e.key ≠ k) ∨ e = ⟨k, get_hash_code k, v⟩ := by
      intro e
      simp only [LinkedList.push_front, List.mem_cons]
      constructor
      · rintro (h1 | h1)
        · exact Or.inr h1
        · exact Or.inl ⟨h1, hno e h1⟩
      · rintro (h1 | h1)
        · exact Or.inr h1.1
        · exact Or.inl h1
    have hwf2 : WF get_hash_code t2 := by
      refine WF_set_bucket h (get_hash_code k % t.capacity) _ hcap hbk ?_ ?_ ?_
      · simp [LinkedList.push_front, h.size_eq b hbm]
      · intro e he
        rcases (hb1 e).mp he with ⟨h1, _⟩ | h1
        · exact hpl e h1
        · rw [h1]; exact ⟨rfl, rfl⟩
      · simp only [LinkedList.push_front, List.map_cons, List.nodup_cons]
        refine ⟨?_, h.nodup b hbm⟩
        intro hin
        obtain ⟨e0, he0, hk0⟩ := List.mem_map.mp hin
        exact hno e0 he0 hk0
    have hent2 := mem_entries_set_bucket h k b _ hb hbk _ hb1
    by_cases hcond : b.m_size + 1 > maxColision ∨ t2.fill_factor_exceeds = true
    · rw [if_pos hcond] at hset
      obtain ⟨t3, hr, hc3, _⟩ := rehash_ok t2 hwf2.capacity_pos hwf2.length_eq
      have := WF_rehash hwf2 hr
      refine ⟨t3, by rw [hset, hr], this.1, ?_, Or.inr (by rw [hc3, hcap])⟩
      intro e
      rw [this.2 e, hent2 e]
    · rw [if_neg hcond] at hset
      exact ⟨t2, hset, hwf2, hent2, Or.inl hcap⟩

theorem remove_eq {get_hash_code : K → Nat} {t : ChainHash K V} (k : K)
    (b : LinkedList (Entry K V)) (hc : 0 < t.capacity)
    (hb : t.buckets[get_hash_code k % t.capacity]? = some b) :
    remove get_hash_code t k = .ok (b.m_head.any (fun e => decide (e.key = k)),
      { t with buckets := (t.buckets.set (get_hash_code k % t.capacity)
          (LinkedList.mk (b.m_head.eraseP (fun e => decide (e.key = k)))
            (if b.m_head.any (fun e => decide (e.key = k)) = true then b.m_size - 1
            else b.m_size))) }) := by
  simp [remove, Nat.pos_iff_ne_zero.mp hc, hb, remove_loop_begin]

/-- On a well-formed table `remove` returns; it reports whether the key was
stored, drops exactly the entries with that key and keeps the three counters. -/
theorem remove_spec {get_hash_code : K → Nat} {t : ChainHash K V}
    (h : WF get_hash_code t) (k : K) :
    ∃ found t1, remove get_hash_code t k = .ok (found, t1) ∧ WF get_hash_code t1 ∧
      (found = true ↔ ∃ e ∈ t.entries, e.key = k) ∧
      (∀ e, e ∈ t1.entries ↔ e ∈ t.entries ∧ e.key ≠ k) ∧
      t1.capacity = t.capacity ∧ t1.size = t.size ∧ t1.used_buckets = t.used_buckets := by
  obtain ⟨b, hb, hbm, hmem⟩ := bucket_for_key h k
  have hpl := h.placed _ b hb
  have hb1 := mem_eraseP_key k b.m_head (h.nodup b hbm)
  refine ⟨_, _, remove_eq k b h.capacity_pos hb, ?_, ?_, ?_, rfl, rfl, rfl⟩
  · refine WF_set_bucket h (get_hash_code k % t.capacity)
      (LinkedList.mk (b.m_head.eraseP (fun e => decide (e.key = k)))
        (if b.m_head.any (fun e => decide (e.key = k)) = true then b.m_size - 1
          else b.m_size)) rfl rfl ?_ ?_ ?_
    · simp only [List.length_eraseP]
      rw [h.size_eq b hbm]
    · intro e he
      exact hpl e ((hb1 e).mp he).1
    · exact (h.nodup b hbm).sublist ((List.eraseP_sublist _).map _)
  · simp only [List.any_eq_true, decide_eq_true_eq]
    constructor
    · rintro ⟨e, he, hk⟩
      exact ⟨e, (hmem e hk).mpr he, hk⟩
    · rintro ⟨e, he, hk⟩
      exact ⟨e, (hmem e hk).mp he, hk⟩
  · intro e
    refine Iff.trans (mem_entries_set_bucket h k b _ hb rfl (fun _ => False) ?_ e) (by simp)
    intro e0
    simp only [or_false]
    exact hb1 e0

/-- Every state reachable from a table of positive initial capacity satisfies
the invariant. -/
theorem reachable_wf {get_hash_code : K → Nat} {c0 : Nat} {t : ChainHash K V}
    (hc0 : 0 < c0) (hr : Reachable get_hash_code c0 t) : WF get_hash_code t := by
  induction hr with
  | init => exact WF_init get_hash_code c0 hc0
  | set key value _ hs ih =>
    obtain ⟨t1, h1, h2, _⟩ := set_spec ih key value
    rw [hs] at h1
    cases h1
    exact h2
  | remove key found _ hs ih =>
    obtain ⟨f, t1, h1, h2, _⟩ := remove_spec ih key
    rw [hs] at h1
    cases h1
    exact h2

theorem reachable_of_by_set {get_hash_code : K → Nat} {c0 : Nat} {t : ChainHash K V}
    (hr : ReachableBySet get_hash_code c0 t) : Reachable get_hash_code c0 t := by
  induction hr with
  | init => exact Reachable.init
  | set key value _ hs ih => exact Reachable.set key value ih hs

theorem reachable_by_set_all (get_hash_code : K → Nat) (c0 : Nat) (kvs : List (K × V))
    (t t1 : ChainHash K V) (hr : ReachableBySet get_hash_code c0 t)
    (hs : set_all get_hash_code t kvs = .ok t1) : ReachableBySet get_hash_code c0 t1 := by
  induction kvs generalizing t with
  | nil =>
    simp only [set_all, Except.ok.injEq] at hs
    subst hs
    exact hr
  | cons p rest ih =>
    obtain ⟨k0, v0⟩ := p
    simp only [set_all] at hs
    cases h1 : set get_hash_code t k0 v0 with
    | error e => rw [h1] at hs; cases hs
    | ok t2 =>
      rw [h1] at hs
      exact ih t2 (ReachableBySet.set k0 v0 hr h1) hs

theorem set_all_frame {get_hash_code : K → Nat} (kvs : List (K × V)) (t : ChainHash K V)
    (h : WF get_hash_code t) (k : K) (hk : k ∉ kvs.map Prod.fst) :
    ∃ t1, set_all get_hash_code t kvs = .ok t1 ∧ WF get_hash_code t1 ∧
      get get_hash_code t1 k = get get_hash_code t k ∧
      contains get_hash_code t1 k = contains get_hash_code t k := by
  induction kvs generalizing t with
  | nil => exact ⟨t, rfl, h, rfl, rfl⟩
  | cons p rest ih =>
    obtain ⟨k0, v0⟩ := p
    simp only [List.map_cons, List.mem_cons, not_or] at hk
    obtain ⟨t1, h1, hwf1, hent, _⟩ := set_spec h k0 v0
    obtain ⟨t2, h2, hwf2, hg, hc⟩ := ih t1 hwf1 hk.2
    have hl := lookup_congr h hwf1 k (by
      intro e hek
      rw [hent e]
      constructor
      · rintro (h3 | h3)
        · exact h3.1
        · exfalso; apply hk.1; rw [← hek, h3]
      · intro h3
        exact Or.inl ⟨h3, by rw [hek]; exact hk.1⟩)
    refine ⟨t2, ?_, hwf2, hg.trans hl.1, hc.trans hl.2⟩
    simp only [set_all, h1]
    exact h2

theorem set_all_total {get_hash_code : K → Nat} (kvs : List (K × V)) (t : ChainHash K V)
    (h : WF get_hash_code t) :
    ∃ t1, set_all get_hash_code t kvs = .ok t1 ∧ WF get_hash_code t1 := by
  induction kvs generalizing t with
  | nil => exact ⟨t, rfl, h⟩
  | cons p rest ih =>
    obtain ⟨k0, v0⟩ := p
    obtain ⟨t1, h1, hwf1, _⟩ := set_spec h k0 v0
    obtain ⟨t2, h2, hwf2⟩ := ih t1 hwf1
    exact ⟨t2, by simp only [set_all, h1]; exact h2, hwf2⟩

theorem set_all_append {get_hash_code : K → Nat} (xs ys : List (K × V))
    (t t1 : ChainHash K V) (h : set_all get_hash_code t xs = .ok t1) :
    set_all get_hash_code t (xs ++ ys) = set_all get_hash_code t1 ys := by
  induction xs generalizing t with
  | nil =>
    simp only [set_all, Except.ok.injEq] at h
    subst h
    rfl
  | cons p rest ih =>
    obtain ⟨k0, v0⟩ := p
    simp only [set_all, List.cons_append] at h ⊢
    cases hs : set get_hash_code t k0 v0 with
    | error e => rw [hs] at h; cases h
    | ok t2 =>
      rw [hs] at h
      exact ih t2 h

theorem set_get_same {get_hash_code : K → Nat} {t : ChainHash K V}
    (h : WF get_hash_code t) (k : K) (v : V) :
    ∃ t1, set get_hash_code t k v = .ok t1 ∧ WF get_hash_code t1 ∧
      get get_hash_code t1 k = .ok v ∧ contains get_hash_code t1 k = .ok true := by
  obtain ⟨t1, h1, hwf1, hent, _⟩ := set_spec h k v
  have hin : (⟨k, get_hash_code k, v⟩ : Entry K V) ∈ t1.entries := (hent _).mpr (Or.inr rfl)
  refine ⟨t1, h1, hwf1, ?_, ?_⟩
  · exact ((get_spec hwf1 k).1 v).mpr ⟨_, hin, rfl, rfl⟩
  · obtain ⟨c, hc, hci⟩ := contains_spec hwf1 k
    rw [hc, hci.mpr ⟨_, hin, rfl⟩]

theorem set_frame_wf {get_hash_code : K → Nat} {t t1 : ChainHash K V}
    (h : WF get_hash_code t) (k : K) (v : V) (hs : set get_hash_code t k v = .ok t1)
    (k1 : K) (hk : k1 ≠ k) :
    get get_hash_code t1 k1 = get get_hash_code t k1 ∧
      contains get_hash_code t1 k1 = contains get_hash_code t k1 := by
  obtain ⟨t2, h1, hwf1, hent, _⟩ := set_spec h k v
  rw [hs] at h1
  cases h1
  apply lookup_congr h hwf1 k1
  intro e hek
  rw [hent e]
  constructor
  · rintro (h3 | h3)
    · exact h3.1
    · exfalso; apply hk; rw [← hek, h3]
  · intro h3
    exact Or.inl ⟨h3, by rw [hek]; exact hk⟩

theorem set_step_count {get_hash_code : K → Nat} {t t1 : ChainHash K V}
    (h : WF get_hash_code t) (k : K) (v : V) (hs : set get_hash_code t k v = .ok t1)
    (hc : t1.capacity = t.capacity) :
    t1.used_buckets + nonempty_buckets t = t.used_buckets + nonempty_buckets t1 := by
  obtain ⟨b, hb, hbm, _⟩ := bucket_for_key h k
  cases hscan : set_scan k v b.m_head with
  | some chain =>
    rw [set_present k v b chain h.capacity_pos hb hscan] at hs
    cases hs
    have := countP_set_le (fun b => decide (b.size ≠ 0)) t.buckets _ b
      { b with m_head := chain } hb
    simp only [nonempty_buckets, LinkedList.size] at this ⊢
    omega
  | none =>
    obtain ⟨t2, hcap, hbk, _, hused, hset⟩ := set_absent k v b h.capacity_pos hb hscan
    rw [hs] at hset
    by_cases hcond : b.m_size + 1 > maxColision ∨ t2.fill_factor_exceeds = true
    · rw [if_pos hcond] at hset
      obtain ⟨t3, hr, hc3, _⟩ := rehash_ok t2 (by rw [hcap]; exact h.capacity_pos)
        (by rw [hbk, hcap, List.length_set, h.length_eq])
      rw [hr] at hset
      cases hset
      have := h.capacity_pos
      omega
    · rw [if_neg hcond] at hset
      cases hset
      have := countP_set_le (fun b => decide (b.size ≠ 0)) t.buckets _ b
        (b.push_front ⟨k, get_hash_code k, v⟩) hb
      simp only [nonempty_buckets, LinkedList.size, hbk, LinkedList.push_front] at this ⊢
      rw [hused]
      by_cases h0 : b.m_size = 0
      · simp [h0] at this ⊢
        omega
      · simp [h0] at this ⊢
        omega

theorem remove_step_count {get_hash_code : K → Nat} {t t1 : ChainHash K V} {found : Bool}
    (h : WF get_hash_code t) (k : K) (hs : remove get_hash_code t k = .ok (found, t1)) :
    t1.used_buckets = t.used_buckets ∧ t1.capacity = t.capacity ∧ t1.size = t.size ∧
      nonempty_buckets t1 ≤ nonempty_buckets t := by
  obtain ⟨b, hb, hbm, _⟩ := bucket_for_key h k
  rw [remove_eq k b h.capacity_pos hb] at hs
  cases hs
  refine ⟨rfl, rfl, rfl, ?_⟩
  have := countP_set_le (fun b => decide (b.size ≠ 0)) t.buckets _ b
    (LinkedList.mk (b.m_head.eraseP (fun e => decide (e.key = k)))
      (if b.m_head.any (fun e => decide (e.key = k)) = true then b.m_size - 1
        else b.m_size)) hb
  have hle : (if decide ((LinkedList.mk (b.m_head.eraseP (fun e => decide (e.key = k)))
      (if b.m_head.any (fun e => decide (e.key = k)) = true then b.m_size - 1
        else b.m_size)).size ≠ 0) = true then 1 else 0) ≤
      (if decide (b.size ≠ 0) = true then 1 else 0) := by
    simp only [LinkedList.size]
    by_cases h0 : b.m_size = 0
    · simp [h0]
    · simp only [ne_eq, h0, not_false_eq_true, decide_True, if_true]
      split_ifs <;> omega
  beta_reduce at this
  simp only [nonempty_buckets]
  omega

theorem set_capacity {get_hash_code : K → Nat} {t t1 : ChainHash K V} (k : K) (v : V)
    (hs : set get_hash_code t k v = .ok t1) :
    t1.capacity = t.capacity ∨ t1.capacity = 2 * t.capacity := by
  by_cases hc : t.capacity = 0
  · simp [set, hc] at hs
  · cases hb : t.buckets[get_hash_code k % t.capacity]? with
    | none => simp [set, hc, hb] at hs
    | some b =>
      cases hscan : set_scan k v b.m_head with
      | some chain =>
        rw [set_present k v b chain (Nat.pos_of_ne_zero hc) hb hscan] at hs
        cases hs
        exact Or.inl rfl
      | none =>
        obtain ⟨t2, hcap, _, _, _, hset⟩ :=
          set_absent k v b (Nat.pos_of_ne_zero hc) hb hscan
        rw [hs] at hset
        split at hset
        · have := rehash_fields hset.symm
          right
          omega
        · cases hset
          exact Or.inl hcap

theorem remove_fields {get_hash_code : K → Nat} {t t1 : ChainHash K V} (k : K)
    {found : Bool} (hs : remove get_hash_code t k = .ok (found, t1)) :
    t1.capacity = t.capacity ∧ t1.size = t.size ∧ t1.used_buckets = t.used_buckets := by
  by_cases hc : t.capacity = 0
  · simp [remove, hc] at hs
  · cases hb : t.buckets[get_hash_code k % t.capacity]? with
    | none => simp [remove, hc, hb] at hs
    | some b =>
      rw [remove_eq k b (Nat.pos_of_ne_zero hc) hb] at hs
      cases hs
      exact ⟨rfl, rfl, rfl⟩

theorem reachable_capacity_pow {get_hash_code : K → Nat} {c0 : Nat} {t : ChainHash K V}
    (hr : Reachable get_hash_code c0 t) : ∃ n, t.capacity = c0 * 2 ^ n := by
  induction hr with
  | init => exact ⟨0, by simp [ChainHash.init]⟩
  | set key value _ hs ih =>
    obtain ⟨n, hn⟩ := ih
    rcases set_capacity key value hs with h1 | h1
    · exact ⟨n, by rw [h1, hn]⟩
    · exact ⟨n + 1, by rw [h1, hn, pow_succ]; ring⟩
  | remove key found _ hs ih =>
    obtain ⟨n, hn⟩ := ih
    exact ⟨n, by rw [(remove_fields key hs).1, hn]⟩

theorem reachable_capacity_ge {get_hash_code : K → Nat} {c0 : Nat} {t : ChainHash K V}
    (hr : Reachable get_hash_code c0 t) : c0 ≤ t.capacity := by
  obtain ⟨n, hn⟩ := reachable_capacity_pow hr
  rw [hn]
  exact Nat.le_mul_of_pos_right c0 (Nat.pos_pow_of_pos n (by decide))

theorem set_capacity_back {get_hash_code : K → Nat} {c0 : Nat} {t t1 : ChainHash K V}
    (hr : Reachable get_hash_code c0 t) (hc0 : 0 < c0) (k : K) (v : V)
    (hs : set get_hash_code t k v = .ok t1) (h1 : t1.capacity = c0) :
    t.capacity = c0 ∧ t1.capacity = t.capacity := by
  have hge := reachable_capacity_ge hr
  rcases set_capacity k v hs with h2 | h2 <;> omega

theorem nonempty_le_used {get_hash_code : K → Nat} {c0 : Nat} {t : ChainHash K V}
    (hc0 : 0 < c0) (hr : Reachable get_hash_code c0 t) (hc : t.capacity = c0) :
    nonempty_buckets t ≤ t.used_buckets := by
  induction hr with
  | init => simp [nonempty_buckets, ChainHash.init, LinkedList.empty, LinkedList.size]
  | set key value hprev hs ih =>
    obtain ⟨hb, hsame⟩ := set_capacity_back hprev hc0 key value hs hc
    have := set_step_count (reachable_wf hc0 hprev) key value hs hsame
    have := ih hb
    omega
  | remove key found hprev hs ih =>
    obtain ⟨h1, h2, _, h4⟩ := remove_step_count (reachable_wf hc0 hprev) key hs
    have := ih (by rw [← h2]; exact hc)
    omega

theorem used_eq_nonempty {get_hash_code : K → Nat} {c0 : Nat} {t : ChainHash K V}
    (hc0 : 0 < c0) (hr : ReachableBySet get_hash_code c0 t) (hc : t.capacity = c0) :
    t.used_buckets = nonempty_buckets t := by
  induction hr with
  | init =>
    simp only [nonempty_buckets, ChainHash.init, LinkedList.empty, LinkedList.size]
    symm
    rw [List.countP_eq_zero]
    intro b hb
    rw [(List.mem_replicate.mp hb).2]
    simp
  | set key value hprev hs ih =>
    obtain ⟨hb, hsame⟩ := set_capacity_back (reachable_of_by_set hprev) hc0 key value hs hc
    have := set_step_count (reachable_wf hc0 (reachable_of_by_set hprev)) key value hs hsame
    have := ih hb
    omega

theorem table_three_colliding_reachable : ReachableBySet id 8 table_three_colliding :=
  reachable_by_set_all id 8 [(0, 0), (8, 8), (16, 16)] (init 8) table_three_colliding
    ReachableBySet.init (by rfl)

theorem table_four_colliding_reachable : ReachableBySet id 8 table_four_colliding :=
  ReachableBySet.set 24 24 table_three_colliding_reachable (by rfl)

/-! Properties of the specification, by number. -/

/-- C1: in every state reachable from a fresh table of positive initial
capacity by `set` and `remove`, the call `set key value` returns, and right
after it `get key` returns `value` and `contains key` returns true, for a new
key as for a key already present, with or without a rehash. -/
theorem set_then_get_contains (get_hash_code : K → Nat) (initial_capacity : Nat)
    (t : ChainHash K V) (hcap : 0 < initial_capacity)
    (hr : Reachable get_hash_code initial_capacity t) (k : K) (v : V) :
    ∃ t1, set get_hash_code t k v = .ok t1 ∧ get get_hash_code t1 k = .ok v ∧
      contains get_hash_code t1 k = .ok true := by
  obtain ⟨t1, h1, _, h2, h3⟩ := set_get_same (reachable_wf hcap hr) k v
  exact ⟨t1, h1, h2, h3⟩

/-- Instance of C1: overwriting key `1` in the table holding `1 ↦ 1`. -/
theorem set_then_get_contains_witness :
    0 < 8 ∧ Reachable id 8 table_one_key ∧
    ∃ t1, set id table_one_key 1 5 = .ok t1 ∧ get id t1 1 = .ok 5 ∧
      contains id t1 1 = .ok true :=
  ⟨by decide, Reachable.set 1 1 Reachable.init rfl,
    set_then_get_contains id 8 table_one_key (by decide)
      (Reachable.set 1 1 Reachable.init rfl) 1 5⟩

/-- C2: in every reachable state `set key value` returns and leaves the outcome
of `get` and `contains` unchanged for every other key, rehash or not.
Consequently, after any run of `set` calls, a key holds the value last set
for it: if `(key, value)` is followed only by pairs with other keys, `get key`
returns `value` at the end. -/
theorem set_preserves_other_keys (get_hash_code : K → Nat) (initial_capacity : Nat)
    (t : ChainHash K V) (hcap : 0 < initial_capacity)
    (hr : Reachable get_hash_code initial_capacity t) (k : K) (v : V) :
    (∃ t1, set get_hash_code t k v = .ok t1 ∧
      ∀ k1, k1 ≠ k → get get_hash_code t1 k1 = get get_hash_code t k1 ∧
        contains get_hash_code t1 k1 = contains get_hash_code t k1) ∧
    (∀ pre post : List (K × V), k ∉ post.map Prod.fst →
      ∃ t2, set_all get_hash_code t (pre ++ (k, v) :: post) = .ok t2 ∧
        get get_hash_code t2 k = .ok v ∧ contains get_hash_code t2 k = .ok true) := by
  have hwf := reachable_wf hcap hr
  constructor
  · obtain ⟨t1, h1, _⟩ := set_spec hwf k v
    exact ⟨t1, h1, fun k1 hk1 => set_frame_wf hwf k v h1 k1 hk1⟩
  · intro pre post hpost
    obtain ⟨ta, ha, hwfa⟩ := set_all_total pre t hwf
    obtain ⟨tb, hb, hwfb, hg, hc⟩ := set_get_same hwfa k v
    obtain ⟨tc, hcc, _, hg2, hc2⟩ := set_all_frame post tb hwfb k hpost
    refine ⟨tc, ?_, hg2.trans hg, hc2.trans hc⟩
    rw [set_all_append pre _ t ta ha]
    simp only [set_all, hb]
    exact hcc

/-- Instance of C2: `set(24, 24)` on three colliding keys, a call that
rehashes. -/
theorem set_preserves_other_keys_witness :
    0 < 8 ∧ Reachable id 8 table_three_colliding ∧
    ((∃ t1, set id table_three_colliding 24 24 = .ok t1 ∧
      ∀ k1, k1 ≠ 24 → get id t1 k1 = get id table_three_colliding k1 ∧
        contains id t1 k1 = contains id table_three_colliding k1) ∧
    (∀ pre post : List (Nat × Nat), 24 ∉ post.map Prod.fst →
      ∃ t2, set_all id table_three_colliding (pre ++ (24, 24) :: post) = .ok t2 ∧
        get id t2 24 = .ok 24 ∧ contains id t2 24 = .ok true)) :=
  ⟨by decide, reachable_of_by_set table_three_colliding_reachable,
    set_preserves_other_keys id 8 table_three_colliding (by decide)
      (reachable_of_by_set table_three_colliding_reachable) 24 24⟩

/-- C3: in every reachable state `remove key` returns the value that
`contains key` had before the call; afterwards `contains key` is false, and
`get` and `contains` of every other key answer as before. -/
theorem remove_returns_presence (get_hash_code : K → Nat) (initial_capacity : Nat)
    (t : ChainHash K V) (hcap : 0 < initial_capacity)
    (hr : Reachable get_hash_code initial_capacity t) (k : K) :
    ∃ found t1, remove get_hash_code t k = .ok (found, t1) ∧
      contains get_hash_code t k = .ok found ∧
      contains get_hash_code t1 k = .ok false ∧
      ∀ k1, k1 ≠ k → get get_hash_code t1 k1 = get get_hash_code t k1 ∧
        contains get_hash_code t1 k1 = contains get_hash_code t k1 := by
  have hwf := reachable_wf hcap hr
  obtain ⟨found, t1, h1, hwf1, hf, hent, _⟩ := remove_spec hwf k
  refine ⟨found, t1, h1, ?_, ?_, ?_⟩
  · obtain ⟨c, hc, hci⟩ := contains_spec hwf k
    rw [hc]
    congr 1
    rw [Bool.eq_iff_iff, hci, hf]
  · obtain ⟨c, hc, hci⟩ := contains_spec hwf1 k
    rw [hc]
    congr 1
    rw [Bool.eq_false_iff]
    intro hct
    obtain ⟨e, he, hk⟩ := hci.mp hct
    exact ((hent e).mp he).2 hk
  · intro k1 hk1
    apply lookup_congr hwf hwf1 k1
    intro e hek
    rw [hent e]
    constructor
    · exact fun h3 => h3.1
    · exact fun h3 => ⟨h3, by rw [hek]; exact hk1⟩

/-- Instance of C3: removing key `1` from the table holding `1 ↦ 1`. -/
theorem remove_returns_presence_witness :
    0 < 8 ∧ Reachable id 8 table_one_key ∧
    ∃ found t1, remove id table_one_key 1 = .ok (found, t1) ∧
      contains id table_one_key 1 = .ok found ∧
      contains id t1 1 = .ok false ∧
      ∀ k1, k1 ≠ 1 → get id t1 k1 = get id table_one_key k1 ∧
        contains id t1 k1 = contains id table_one_key k1 :=
  ⟨by decide, Reachable.set 1 1 Reachable.init rfl,
    remove_returns_presence id 8 table_one_key (by decide)
      (Reachable.set 1 1 Reachable.init rfl) 1⟩

/-- C4 fails on the code: `remove(1)` on the reachable table holding the key
`1` returns true and leaves the field `size` at `1`; `remove` never writes
`size`. -/
theorem remove_keeps_size_field :
    Reachable id 8 table_one_key ∧
    contains id table_one_key 1 = .ok true ∧
    table_one_key.size = 1 ∧
    remove id table_one_key 1 = .ok (true, table_key_removed) ∧
    table_key_removed.size = 1 :=
  ⟨Reachable.set 1 1 Reachable.init rfl, rfl, rfl, rfl, rfl⟩

/-- C5: in every reachable state `get key` fails with key-not-found exactly
when `contains key` is false, that is when no stored entry has the key;
`get key` returns `v` exactly when a stored entry has the key and the value
`v`; and `get` has no other outcome. -/
theorem get_fails_iff_absent (get_hash_code : K → Nat) (initial_capacity : Nat)
    (t : ChainHash K V) (hcap : 0 < initial_capacity)
    (hr : Reachable get_hash_code initial_capacity t) (k : K) :
    (get get_hash_code t k = .error .key_not_found ↔
      contains get_hash_code t k = .ok false) ∧
    (contains get_hash_code t k = .ok false ↔ ∀ e ∈ t.entries, e.key ≠ k) ∧
    (∀ v, get get_hash_code t k = .ok v ↔ ∃ e ∈ t.entries, e.key = k ∧ e.value = v) ∧
    ((∃ v, get get_hash_code t k = .ok v) ∨
      get get_hash_code t k = .error .key_not_found) := by
  have hwf := reachable_wf hcap hr
  obtain ⟨g1, g2, g3⟩ := get_spec hwf k
  obtain ⟨c, hc, hci⟩ := contains_spec hwf k
  have hcf : contains get_hash_code t k = .ok false ↔ ∀ e ∈ t.entries, e.key ≠ k := by
    rw [hc]
    constructor
    · intro h1 e he hk
      have : c = true := hci.mpr ⟨e, he, hk⟩
      rw [this] at h1
      cases h1
    · intro h1
      congr 1
      rw [Bool.eq_false_iff]
      intro hct
      obtain ⟨e, he, hk⟩ := hci.mp hct
      exact h1 e he hk
  exact ⟨g2.trans hcf.symm, hcf, g1, g3⟩

/-- Instance of C5: key `9` in the non-empty table holding `1 ↦ 1`. -/
theorem get_fails_iff_absent_witness :
    0 < 8 ∧ Reachable id 8 table_one_key ∧
    ((get id table_one_key 9 = .error .key_not_found ↔
      contains id table_one_key 9 = .ok false) ∧
    (contains id table_one_key 9 = .ok false ↔ ∀ e ∈ table_one_key.entries, e.key ≠ 9) ∧
    (∀ v, get id table_one_key 9 = .ok v ↔
      ∃ e ∈ table_one_key.entries, e.key = 9 ∧ e.value = v) ∧
    ((∃ v, get id table_one_key 9 = .ok v) ∨
      get id table_one_key 9 = .error .key_not_found)) :=
  ⟨by decide, Reachable.set 1 1 Reachable.init rfl,
    get_fails_iff_absent id 8 table_one_key (by decide)
      (Reachable.set 1 1 Reachable.init rfl) 9⟩

/-- C6: in every state reachable from a fresh table of positive initial
capacity, two stored entries with equal keys are the same node (same bucket,
same position), every entry caches the hash of its key, and every entry lies
in the bucket with index `hash(key) % capacity`, an index below
`bucket_count()`. -/
theorem placement_and_uniqueness (get_hash_code : K → Nat) (initial_capacity : Nat)
    (t : ChainHash K V) (hcap : 0 < initial_capacity)
    (hr : Reachable get_hash_code initial_capacity t) :
    (∀ (i j p q : Nat) (bi bj : LinkedList (Entry K V)) (ei ej : Entry K V),
      t.buckets[i]? = some bi → t.buckets[j]? = some bj →
      bi.m_head[p]? = some ei → bj.m_head[q]? = some ej →
      ei.key = ej.key → i = j ∧ p = q) ∧
    (∀ (i : Nat) (b : LinkedList (Entry K V)) (e : Entry K V),
      t.buckets[i]? = some b → e ∈ b.m_head →
      e.hash = get_hash_code e.key ∧ i = get_hash_code e.key % t.capacity ∧
        i < t.bucket_count) := by
  have hwf := reachable_wf hcap hr
  constructor
  · intro i j p q bi bj ei ej hbi hbj hei hej hk
    have pi := hwf.placed i bi hbi ei (List.mem_iff_getElem?.mpr ⟨p, hei⟩)
    have pj := hwf.placed j bj hbj ej (List.mem_iff_getElem?.mpr ⟨q, hej⟩)
    have hij : i = j := by rw [← pi.2, ← pj.2, pi.1, pj.1, hk]
    subst hij
    rw [hbi] at hbj
    cases hbj
    refine ⟨rfl, ?_⟩
    have hnd := hwf.nodup bi (List.mem_iff_getElem?.mpr ⟨i, hbi⟩)
    obtain ⟨hp, hpe⟩ := List.getElem?_eq_some.mp hei
    obtain ⟨hq, hqe⟩ := List.getElem?_eq_some.mp hej
    have hp1 : p < (bi.m_head.map Entry.key).length := by simpa using hp
    have hq1 : q < (bi.m_head.map Entry.key).length := by simpa using hq
    apply (@List.Nodup.getElem_inj_iff _ (bi.m_head.map Entry.key) hnd p hp1 q hq1).mp
    simp only [List.getElem_map, hpe, hqe, hk]
  · intro i b e hb he
    have p := hwf.placed i b hb e he
    refine ⟨p.1, by rw [← p.1, p.2], ?_⟩
    have := (List.getElem?_eq_some.mp hb).1
    rw [hwf.length_eq] at this
    exact this

/-- Instance of C6: the table holding `1 ↦ 1`. -/
theorem placement_and_uniqueness_witness :
    0 < 8 ∧ Reachable id 8 table_one_key ∧
    ((∀ (i j p q : Nat) (bi bj : LinkedList (Entry Nat Nat)) (ei ej : Entry Nat Nat),
      table_one_key.buckets[i]? = some bi → table_one_key.buckets[j]? = some bj →
      bi.m_head[p]? = some ei → bj.m_head[q]? = some ej →
      ei.key = ej.key → i = j ∧ p = q) ∧
    (∀ (i : Nat) (b : LinkedList (Entry Nat Nat)) (e : Entry Nat Nat),
      table_one_key.buckets[i]? = some b → e ∈ b.m_head →
      e.hash = id e.key ∧ i = id e.key % table_one_key.capacity ∧
        i < table_one_key.bucket_count)) :=
  ⟨by decide, Reachable.set 1 1 Reachable.init rfl,
    placement_and_uniqueness id 8 table_one_key (by decide)
      (Reachable.set 1 1 Reachable.init rfl)⟩

/-- C7 fails on the code: after `set(1, 1)` and `remove(1)` on a fresh table of
eight buckets the field `size` is `1` while the bucket lengths sum to `0`. -/
theorem size_field_after_remove :
    Reachable id 8 table_key_removed ∧
    table_key_removed.size = 1 ∧
    (table_key_removed.buckets.map LinkedList.size).sum = 0 :=
  ⟨Reachable.remove 1 true (Reachable.set 1 1 Reachable.init rfl) rfl, rfl, rfl⟩

/-- C8 as stated fails: after `set(1, 1)` and `remove(1)` the field
`used_buckets` is `1` with no bucket in use, and after four colliding keys and
one rehash it is `1` with two buckets in use. -/
theorem used_buckets_not_nonempty_count :
    (Reachable id 8 table_key_removed ∧ table_key_removed.used_buckets = 1 ∧
      nonempty_buckets table_key_removed = 0) ∧
    (Reachable id 8 table_four_colliding ∧ table_four_colliding.used_buckets = 1 ∧
      nonempty_buckets table_four_colliding = 2) :=
  ⟨⟨Reachable.remove 1 true (Reachable.set 1 1 Reachable.init rfl) rfl, rfl, rfl⟩,
    ⟨(reachable_of_by_set table_four_colliding_reachable), rfl, rfl⟩⟩

/-- C9: in every state reachable from a table of initial capacity `c0`,
`bucket_count()` is `c0 * 2 ^ n` for some `n` and is at least `c0`; a `set`
that returns keeps `bucket_count()` or doubles it, a `remove` keeps it (`get`
and `contains` return no new state), and for positive `c0` both calls
return. -/
theorem capacity_doubles_only (get_hash_code : K → Nat) (initial_capacity : Nat)
    (t : ChainHash K V) (hr : Reachable get_hash_code initial_capacity t) :
    (∃ n, t.bucket_count = initial_capacity * 2 ^ n) ∧
    initial_capacity ≤ t.bucket_count ∧
    (∀ k v t1, set get_hash_code t k v = .ok t1 →
      t1.bucket_count = t.bucket_count ∨ t1.bucket_count = 2 * t.bucket_count) ∧
    (∀ k found t1, remove get_hash_code t k = .ok (found, t1) →
      t1.bucket_count = t.bucket_count) ∧
    (0 < initial_capacity → ∀ k v,
      (∃ t1, set get_hash_code t k v = .ok t1) ∧
      (∃ found t1, remove get_hash_code t k = .ok (found, t1))) := by
  refine ⟨reachable_capacity_pow hr, reachable_capacity_ge hr, fun k v t1 hs => set_capacity k v hs,
    fun k _ _ hs => (remove_fields k hs).1, ?_⟩
  intro hc0 k v
  have hwf := reachable_wf hc0 hr
  obtain ⟨t1, h1, _⟩ := set_spec hwf k v
  obtain ⟨f, t2, h2, _⟩ := remove_spec hwf k
  exact ⟨⟨t1, h1⟩, ⟨f, t2, h2⟩⟩

/-- Instance of C9: the table of sixteen buckets reached by one rehash. -/
theorem capacity_doubles_only_witness :
    Reachable id 8 table_four_colliding ∧
    ((∃ n, table_four_colliding.bucket_count = 8 * 2 ^ n) ∧
    8 ≤ table_four_colliding.bucket_count ∧
    (∀ k v t1, set id table_four_colliding k v = .ok t1 →
      t1.bucket_count = table_four_colliding.bucket_count ∨
        t1.bucket_count = 2 * table_four_colliding.bucket_count) ∧
    (∀ k found t1, remove id table_four_colliding k = .ok (found, t1) →
      t1.bucket_count = table_four_colliding.bucket_count) ∧
    (0 < 8 → ∀ k v,
      (∃ t1, set id table_four_colliding k v = .ok t1) ∧
      (∃ found t1, remove id table_four_colliding k = .ok (found, t1)))) :=
  ⟨(reachable_of_by_set table_four_colliding_reachable),
    capacity_doubles_only id 8 table_four_colliding
      (reachable_of_by_set table_four_colliding_reachable)⟩

/-- C10 fails on the code: with eight buckets `bucket_size(8)` reads outside
the array (undefined behaviour, no exception), whereas `begin(8)` and `end(8)`
throw the bucket-index error. -/
theorem bucket_size_unchecked :
    (init 8 : ChainHash Nat Nat).bucket_count = 8 ∧
    bucket_size (init 8 : ChainHash Nat Nat) 8 = .error .undefined_behaviour ∧
    ChainHash.begin (init 8 : ChainHash Nat Nat) 8 = .error .bucket_index_out_of_bounds ∧
    ChainHash.end_ (init 8 : ChainHash Nat Nat) 8 = .error .bucket_index_out_of_bounds :=
  ⟨rfl, rfl, rfl, rfl⟩

/-! The table of consecutive keys, the growth trigger and the load factor. -/

theorem fill_factor_exceeds_eq {K V : Type} (t : ChainHash K V) :
    t.fill_factor_exceeds = load_exceeds t.used_buckets t.capacity := rfl

theorem load_exceeds_mono (u1 u2 c : Nat) (h : u1 ≤ u2) (h2 : load_exceeds u2 c = false) :
    load_exceeds u1 c = false := by
  simp only [load_exceeds, decide_eq_false_iff_not, Nat.not_lt] at h2 ⊢
  exact Nat.le_trans (Nat.mul_le_mul_right _ h) h2

theorem seq_table_bucket (c n i : Nat) :
    (seq_table c n).buckets[i]? =
      if i < c then some (if i < n then ⟨[⟨i, i, i⟩], 1⟩ else LinkedList.empty) else none := by
  simp only [seq_table, List.getElem?_map, List.getElem?_range']
  by_cases hi : i < c
  · simp [List.getElem?_range hi, hi]
  · simp [hi, List.getElem?_eq_none (by simpa using hi : (List.range c).length ≤ i)]

theorem seq_table_zero (c : Nat) : seq_table c 0 = init c := by
  simp only [seq_table, init, Nat.not_lt_zero, if_false]
  congr 1
  apply List.ext_getElem?
  intro i
  by_cases hi : i < c
  · simp [List.getElem?_range hi, hi]
  · simp [hi, List.getElem?_eq_none (by simpa using hi : (List.range c).length ≤ i),
      List.getElem?_eq_none (by simpa using hi : (List.replicate c (LinkedList.empty : LinkedList (Entry Nat Nat))).length ≤ i)]

theorem set_seq_table (c n : Nat) (hn : n < c) (hl : load_exceeds (n + 1) c = false) :
    set id (seq_table c n) n n = .ok (seq_table c (n + 1)) := by
  have hc : 0 < (seq_table c n).capacity := by simp only [seq_table]; omega
  have hmod : id n % (seq_table c n).capacity = n := by
    simp only [seq_table, id]; exact Nat.mod_eq_of_lt hn
  have hb : (seq_table c n).buckets[id n % (seq_table c n).capacity]? =
      some LinkedList.empty := by
    rw [hmod, seq_table_bucket]; simp [hn]
  obtain ⟨t2, hcap, hbk, hsz, hused, hset⟩ :=
    @set_absent Nat Nat _ id (seq_table c n) n n LinkedList.empty hc hb rfl
  have hcond : ¬((LinkedList.empty : LinkedList (Entry Nat Nat)).m_size + 1 > maxColision ∨
      t2.fill_factor_exceeds = true) := by
    rw [fill_factor_exceeds_eq, hcap, hused]
    simp only [LinkedList.empty, maxColision, seq_table]
    simp [hl]
  rw [if_neg hcond] at hset
  rw [hset]
  have ht2 : t2 = ⟨t2.size, t2.used_buckets, t2.capacity, t2.buckets⟩ := rfl
  rw [ht2, hcap, hbk, hsz, hused, hmod]
  simp only [seq_table, LinkedList.empty, Nat.zero_add, if_true, Except.ok.injEq,
    ChainHash.mk.injEq, true_and]
  apply List.ext_getElem?
  intro i
  rw [List.getElem?_set]
  by_cases hi : i < c
  · by_cases hin : n = i
    · subst hin
      simp [LinkedList.push_front, id, hn, List.getElem?_range hn]
    · have hlt : (i < n + 1) = (i < n) := by
        apply propext
        constructor <;> intro h <;> omega
      simp [hin, List.getElem?_range hi, hlt]
  · have h1 : (List.range c).length ≤ i := by simpa using hi
    have hin : ¬ n = i := by omega
    simp [hin, List.getElem?_eq_none h1]

theorem seq_pairs_succ (n m : Nat) : seq_pairs n (m + 1) = (n, n) :: seq_pairs (n + 1) m := by
  simp [seq_pairs, List.range'_succ]

theorem set_all_seq (c m n : Nat) (hn : n + m ≤ c) (hl : load_exceeds (n + m) c = false) :
    set_all id (seq_table c n) (seq_pairs n m) = .ok (seq_table c (n + m)) := by
  induction m generalizing n with
  | zero => simp [seq_pairs, set_all]
  | succ m ih =>
    rw [seq_pairs_succ]
    have h1 := set_seq_table c n (by omega) (load_exceeds_mono (n + 1) (n + (m + 1)) c (by omega) hl)
    simp only [set_all, h1]
    have := ih (n + 1) (by omega) (by rw [show n + 1 + m = n + (m + 1) by omega]; exact hl)
    rw [this]
    congr 2
    omega

theorem get_seq_table (c n i : Nat) (hi : i < c) :
    get id (seq_table c n) i = if i < n then .ok i else .error .key_not_found := by
  have hc : (seq_table c n).capacity ≠ 0 := by simp only [seq_table]; omega
  have hmod : id i % (seq_table c n).capacity = i := by
    simp only [seq_table, id]; exact Nat.mod_eq_of_lt hi
  simp only [get, hc, if_false, hmod, seq_table_bucket, hi, if_true]
  by_cases hin : i < n
  · simp [hin, get_scan]
  · simp [hin, get_scan, LinkedList.empty]

theorem contains_seq_table (c n i : Nat) (hi : i < c) :
    contains id (seq_table c n) i = .ok (decide (i < n)) := by
  have hc : (seq_table c n).capacity ≠ 0 := by simp only [seq_table]; omega
  have hmod : id i % (seq_table c n).capacity = i := by
    simp only [seq_table, id]; exact Nat.mod_eq_of_lt hi
  simp only [contains, hc, if_false, hmod, seq_table_bucket, hi, if_true]
  by_cases hin : i < n
  · simp [hin, contains_scan]
  · simp [hin, contains_scan, LinkedList.empty]

theorem seq_table_reachable (c n : Nat) (hn : n ≤ c) (hl : load_exceeds n c = false) :
    ReachableBySet id c (seq_table c n) := by
  have h := set_all_seq c n 0 (by omega) (by simpa using hl)
  rw [seq_table_zero, Nat.zero_add] at h
  exact reachable_by_set_all id c (seq_pairs 0 n) (init c) (seq_table c n) ReachableBySet.init h

/-- C15: with the identity hash, `set(i, i)` for `i = 0, ..., 10` on a table of
eight buckets: after each of the first six calls `bucket_count()` is 8, after
the seventh it is 16, at the end it is 16, `get(i)` returns `i` for every
`i <= 10`, and `get(11)` fails with key-not-found. -/
theorem scenario_eleven_keys :
    seq_pairs 0 11 = [(0, 0), (1, 1), (2, 2), (3, 3), (4, 4), (5, 5), (6, 6), (7, 7), (8, 8),
      (9, 9), (10, 10)] ∧
    (∀ n, n ≤ 6 → ∃ t, set_all id (init 8) (seq_pairs 0 n) = .ok t ∧ t.bucket_count = 8) ∧
    (∃ t, set_all id (init 8) (seq_pairs 0 7) = .ok t ∧ t.bucket_count = 16) ∧
    (∃ t, set_all id (init 8) (seq_pairs 0 11) = .ok t ∧ t.bucket_count = 16 ∧
      (∀ i, i ≤ 10 → get id t i = .ok i) ∧ get id t 11 = .error .key_not_found) := by
  have h6 : ∀ n, n ≤ 6 → set_all id (init 8) (seq_pairs 0 n) = .ok (seq_table 8 n) := by
    intro n hn
    have := set_all_seq 8 n 0 (by omega) (by
      apply load_exceeds_mono (0 + n) 6 8 (by omega)
      decide)
    rw [seq_table_zero, Nat.zero_add] at this
    exact this
  have h7 : set id (seq_table 8 6) 6 6 = .ok (seq_table 16 7) := by rfl
  have h11 : set_all id (seq_table 16 7) (seq_pairs 7 4) = .ok (seq_table 16 11) :=
    set_all_seq 16 4 7 (by omega) (by decide)
  have e7 : seq_pairs 0 7 = seq_pairs 0 6 ++ [(6, 6)] := by rfl
  have e11 : seq_pairs 0 11 = seq_pairs 0 7 ++ seq_pairs 7 4 := by rfl
  have s7 : set_all id (init 8) (seq_pairs 0 7) = .ok (seq_table 16 7) := by
    rw [e7, set_all_append _ _ _ _ (h6 6 (by omega))]
    simp only [set_all, h7]
  have s11 : set_all id (init 8) (seq_pairs 0 11) = .ok (seq_table 16 11) := by
    rw [e11, set_all_append _ _ _ _ s7]
    exact h11
  refine ⟨by rfl, fun n hn => ⟨_, h6 n hn, rfl⟩, ⟨_, s7, rfl⟩, ⟨_, s11, rfl, ?_, ?_⟩⟩
  · intro i hi
    rw [get_seq_table 16 11 i (by omega)]
    simp [show i < 11 by omega]
  · rw [get_seq_table 16 11 11 (by omega)]
    simp

theorem load_exceeds_iff_four_fifths (u c : Nat) (hc : c < 16777216) :
    load_exceeds u c = true ↔ 4 * c < 5 * u := by
  simp only [load_exceeds, maxFillFactor_num, decide_eq_true_eq]
  omega

theorem load_ok_doubled (u u1 c : Nat) (hc : 0 < c) (h : load_exceeds u c = false)
    (hu : u1 ≤ u + 1) : load_exceeds u1 (2 * c) = false := by
  simp only [load_exceeds, maxFillFactor_num, decide_eq_false_iff_not, Nat.not_lt] at h ⊢
  by_cases h1 : c = 1
  · subst h1
    have hu0 : u = 0 := by omega
    subst hu0
    have hu1 : u1 = 0 ∨ u1 = 1 := by omega
    rcases hu1 with h2 | h2 <;> subst h2 <;> decide
  · omega

theorem bucket_size_seq_table (c n i : Nat) (hi : i < c) :
    bucket_size (seq_table c n) i = .ok (if i < n then 1 else 0) := by
  simp only [bucket_size, seq_table_bucket, hi, if_true]
  by_cases hin : i < n
  · simp [hin, LinkedList.size]
  · simp [hin, LinkedList.size, LinkedList.empty]

theorem seq_table_bucket_count (c n : Nat) : (seq_table c n).bucket_count = c := rfl

theorem seq_table_used_buckets (c n : Nat) : (seq_table c n).used_buckets = n := rfl

theorem contains_eq {get_hash_code : K → Nat} {t : ChainHash K V} (k : K)
    (b : LinkedList (Entry K V)) (hc : 0 < t.capacity)
    (hb : t.buckets[get_hash_code k % t.capacity]? = some b) :
    contains get_hash_code t k = .ok (contains_scan k b.m_head) := by
  simp [contains, Nat.pos_iff_ne_zero.mp hc, hb]

theorem set_scan_none_iff_contains (k : K) (v : V) (l : List (Entry K V)) :
    set_scan k v l = none ↔ contains_scan k l = false := by
  rw [set_scan_eq_none_iff, ← Bool.not_eq_true, contains_scan_eq_true_iff]
  constructor
  · rintro h ⟨e, he, hk⟩
    exact h e he hk
  · intro h e he hk
    exact h ⟨e, he, hk⟩

theorem map_set_same {α β : Type} (f : α → β) (L : List α) (i : Nat) (b b1 : α)
    (hb : L[i]? = some b) (hf : f b1 = f b) : (L.set i b1).map f = L.map f := by
  apply List.ext_getElem?
  intro j
  simp only [List.getElem?_map, List.getElem?_set]
  by_cases hij : i = j
  · subst hij
    have hi := (List.getElem?_eq_some.mp hb).1
    simp [hi, hb, hf]
  · simp [hij]

theorem set_load {get_hash_code : K → Nat} {t t1 : ChainHash K V} (k : K) (v : V)
    (hs : set get_hash_code t k v = .ok t1) :
    (t1.capacity = t.capacity ∧ t1.used_buckets = t.used_buckets) ∨
    (t1.capacity = t.capacity ∧ load_exceeds t1.used_buckets t1.capacity = false) ∨
    (t1.capacity = 2 * t.capacity ∧ t1.used_buckets ≤ t.used_buckets + 1) := by
  by_cases hc : t.capacity = 0
  · simp [set, hc] at hs
  · cases hb : t.buckets[get_hash_code k % t.capacity]? with
    | none => simp [set, hc, hb] at hs
    | some b =>
      cases hscan : set_scan k v b.m_head with
      | some chain =>
        rw [set_present k v b chain (Nat.pos_of_ne_zero hc) hb hscan] at hs
        cases hs
        exact Or.inl ⟨rfl, rfl⟩
      | none =>
        obtain ⟨t2, hcap, _, _, hused, hset⟩ :=
          set_absent k v b (Nat.pos_of_ne_zero hc) hb hscan
        rw [hs] at hset
        split at hset
        · have := rehash_fields hset.symm
          right; right
          refine ⟨by omega, ?_⟩
          rw [this.2.2, hused]
          split <;> omega
        · rename_i hcond
          cases hset
          right; left
          refine ⟨hcap, ?_⟩
          rw [← fill_factor_exceeds_eq]
          simp only [not_or, Bool.not_eq_true] at hcond
          exact hcond.2

/-- C17 as stated fails with the threshold read as 4/5: in the reachable table
of `2 ^ 24` buckets holding the keys below 13421772, the key 13421772 is
absent and its bucket is empty; after the insertion the ratio
`13421773 / 2 ^ 24` is above 4/5, yet `set` returns a table with the same
`bucket_count()`. -/
theorem growth_threshold_not_four_fifths :
    Reachable id 16777216 (seq_table 16777216 13421772) ∧
    contains id (seq_table 16777216 13421772) 13421772 = .ok false ∧
    bucket_size (seq_table 16777216 13421772) 13421772 = .ok 0 ∧
    4 * (seq_table 16777216 13421772).bucket_count <
      5 * ((seq_table 16777216 13421772).used_buckets + 1) ∧
    set id (seq_table 16777216 13421772) 13421772 13421772 =
      .ok (seq_table 16777216 13421773) ∧
    (seq_table 16777216 13421773).bucket_count =
      (seq_table 16777216 13421772).bucket_count := by
  refine ⟨reachable_of_by_set (seq_table_reachable 16777216 13421772 (by decide) (by decide)),
    ?_, ?_, ?_, set_seq_table 16777216 13421772 (by decide) (by decide), ?_⟩
  · rw [contains_seq_table 16777216 13421772 13421772 (by decide)]
    simp
  · rw [bucket_size_seq_table 16777216 13421772 13421772 (by decide)]
    simp
  · rw [seq_table_bucket_count, seq_table_used_buckets]
    decide
  · rw [seq_table_bucket_count, seq_table_bucket_count]

/-- C17 amended: in every reachable state `set key value` doubles
`bucket_count()` exactly when the key was absent and, with the new entry
counted and `used_buckets` updated, the bucket is longer than `maxColision`
or the test `fill_factor() > maxFillFactor` of the code holds
(`load_exceeds`); otherwise `bucket_count()` is unchanged.  For fewer than
`2 ^ 24` buckets that test is `used_buckets / capacity > 4 / 5`.  When the
key was present, `size`, `used_buckets`, `bucket_count()`, the keys of every
chain in order, and every chain counter are unchanged. -/
theorem set_growth_trigger (get_hash_code : K → Nat) (initial_capacity : Nat)
    (t : ChainHash K V) (hcap : 0 < initial_capacity)
    (hr : Reachable get_hash_code initial_capacity t) (k : K) (v : V) :
    ∃ t1 n, set get_hash_code t k v = .ok t1 ∧
      bucket_size t (get_hash_code k % t.bucket_count) = .ok n ∧
      (t1.bucket_count = 2 * t.bucket_count ↔
        contains get_hash_code t k = .ok false ∧
          (n + 1 > maxColision ∨
            load_exceeds (if n = 0 then t.used_buckets + 1 else t.used_buckets)
              t.bucket_count = true)) ∧
      (t1.bucket_count ≠ 2 * t.bucket_count → t1.bucket_count = t.bucket_count) ∧
      (t.bucket_count < 16777216 → ∀ u,
        (load_exceeds u t.bucket_count = true ↔ 4 * t.bucket_count < 5 * u)) ∧
      (contains get_hash_code t k = .ok true →
        t1.size = t.size ∧ t1.used_buckets = t.used_buckets ∧
        t1.bucket_count = t.bucket_count ∧
        t1.buckets.map (fun b => b.m_head.map Entry.key) =
          t.buckets.map (fun b => b.m_head.map Entry.key) ∧
        t1.buckets.map LinkedList.size = t.buckets.map LinkedList.size) := by
  have hwf := reachable_wf hcap hr
  obtain ⟨b, hb, hbm, _⟩ := bucket_for_key hwf k
  have hcont := contains_eq k b hwf.capacity_pos hb
  have hpos := hwf.capacity_pos
  have hbs : bucket_size t (get_hash_code k % t.bucket_count) = .ok b.m_size := by
    simp [bucket_size, bucket_count, hb, LinkedList.size]
  have h45 : t.bucket_count < 16777216 → ∀ u,
      (load_exceeds u t.bucket_count = true ↔ 4 * t.bucket_count < 5 * u) :=
    fun hlt u => load_exceeds_iff_four_fifths u _ hlt
  cases hscan : set_scan k v b.m_head with
  | some chain =>
    have hpres : contains_scan k b.m_head = true := by
      by_contra hne
      have := (set_scan_none_iff_contains k v b.m_head).mpr (by simpa using hne)
      rw [hscan] at this
      cases this
    refine ⟨_, b.m_size, set_present k v b chain hwf.capacity_pos hb hscan, hbs, ?_, ?_, h45, ?_⟩
    · simp only [bucket_count, hcont, hpres]
      constructor
      · intro h2
        omega
      · rintro ⟨h2, _⟩
        cases h2
    · intro _
      rfl
    · intro _
      refine ⟨rfl, rfl, rfl, ?_, ?_⟩
      · exact map_set_same _ _ _ b _ hb (by simp [set_scan_map_key k v _ _ hscan])
      · exact map_set_same _ _ _ b _ hb (by simp [LinkedList.size])
  | none =>
    have habs : contains_scan k b.m_head = false :=
      (set_scan_none_iff_contains k v b.m_head).mp hscan
    obtain ⟨t2, hcap2, hbk, _, hused, hset⟩ := set_absent k v b hwf.capacity_pos hb hscan
    have hcond_iff : (b.m_size + 1 > maxColision ∨ t2.fill_factor_exceeds = true) ↔
        (b.m_size + 1 > maxColision ∨
          load_exceeds (if b.m_size = 0 then t.used_buckets + 1 else t.used_buckets)
            t.bucket_count = true) := by
      rw [fill_factor_exceeds_eq, hcap2, hused]
      simp only [bucket_count, Nat.add_left_eq_self]
    by_cases hcond : b.m_size + 1 > maxColision ∨ t2.fill_factor_exceeds = true
    · rw [if_pos hcond] at hset
      obtain ⟨t3, hr3, hc3, _⟩ := rehash_ok t2 (by rw [hcap2]; exact hpos)
        (by rw [hbk, hcap2, List.length_set, hwf.length_eq])
      refine ⟨t3, b.m_size, by rw [hset, hr3], hbs, ?_, ?_, h45, ?_⟩
      · simp only [hcont, habs, true_and]
        constructor
        · intro _
          exact hcond_iff.mp hcond
        · intro _
          simp only [bucket_count]
          omega
      · intro hne
        exfalso
        apply hne
        simp only [bucket_count]
        omega
      · intro h2
        rw [hcont, habs] at h2
        cases h2
    · rw [if_neg hcond] at hset
      refine ⟨t2, b.m_size, hset, hbs, ?_, ?_, h45, ?_⟩
      · simp only [hcont, habs, true_and]
        constructor
        · intro h2
          simp only [bucket_count] at h2
          omega
        · intro h2
          exact absurd (hcond_iff.mpr h2) hcond
      · intro _
        exact hcap2
      · intro h2
        rw [hcont, habs] at h2
        cases h2

/-- Instance of the amended C17: `set(24, 24)` on three colliding keys. -/
theorem set_growth_trigger_witness :
    0 < 8 ∧ Reachable id 8 table_three_colliding ∧
    ∃ t1 n, set id table_three_colliding 24 24 = .ok t1 ∧
      bucket_size table_three_colliding (id 24 % table_three_colliding.bucket_count) = .ok n ∧
      (t1.bucket_count = 2 * table_three_colliding.bucket_count ↔
        contains id table_three_colliding 24 = .ok false ∧
          (n + 1 > maxColision ∨
            load_exceeds (if n = 0 then table_three_colliding.used_buckets + 1
              else table_three_colliding.used_buckets)
              table_three_colliding.bucket_count = true)) ∧
      (t1.bucket_count ≠ 2 * table_three_colliding.bucket_count →
        t1.bucket_count = table_three_colliding.bucket_count) ∧
      (table_three_colliding.bucket_count < 16777216 → ∀ u,
        (load_exceeds u table_three_colliding.bucket_count = true ↔
          4 * table_three_colliding.bucket_count < 5 * u)) ∧
      (contains id table_three_colliding 24 = .ok true →
        t1.size = table_three_colliding.size ∧
        t1.used_buckets = table_three_colliding.used_buckets ∧
        t1.bucket_count = table_three_colliding.bucket_count ∧
        t1.buckets.map (fun b => b.m_head.map Entry.key) =
          table_three_colliding.buckets.map (fun b => b.m_head.map Entry.key) ∧
        t1.buckets.map LinkedList.size =
          table_three_colliding.buckets.map LinkedList.size) :=
  ⟨by decide, reachable_of_by_set table_three_colliding_reachable,
    set_growth_trigger id 8 table_three_colliding (by decide)
      (reachable_of_by_set table_three_colliding_reachable) 24 24⟩


theorem reachable_load {get_hash_code : K → Nat} {c0 : Nat} {t : ChainHash K V}
    (hc0 : 0 < c0) (hr : Reachable get_hash_code c0 t) :
    load_exceeds t.used_buckets t.capacity = false := by
  induction hr with
  | init => simp [ChainHash.init, load_exceeds]
  | set key value hprev hs ih =>
    rcases set_load key value hs with ⟨h1, h2⟩ | ⟨_, h2⟩ | ⟨h1, h2⟩
    · rw [h1, h2]; exact ih
    · exact h2
    · rw [h1]
      exact load_ok_doubled _ _ _ (reachable_wf hc0 hprev).capacity_pos ih h2
  | remove key found hprev hs ih =>
    rw [(remove_fields key hs).1, (remove_fields key hs).2.2]
    exact ih

/-- C18 as stated fails: the table of `2 ^ 24` buckets holding the keys below
13421773, one per bucket, is reachable by `set` alone, and there
`5 * used_buckets > 4 * capacity`. -/
theorem load_factor_above_four_fifths :
    Reachable id 16777216 (seq_table 16777216 13421773) ∧
    ¬ (5 * (seq_table 16777216 13421773).used_buckets ≤
      4 * (seq_table 16777216 13421773).bucket_count) := by
  refine ⟨reachable_of_by_set (seq_table_reachable 16777216 13421773 (by decide) (by decide)),
    ?_⟩
  rw [seq_table_bucket_count, seq_table_used_buckets]
  decide

/-- C18 amended: in every state reachable from a table of positive initial
capacity the test `fill_factor() > maxFillFactor` of the code is false, that
is `used_buckets * 2 ^ 54 <= capacity * (13421773 * 2 ^ 30 + 1)`; for fewer
than `2 ^ 24` buckets this gives `5 * used_buckets <= 4 * capacity`. -/
theorem load_factor_bound (get_hash_code : K → Nat) (initial_capacity : Nat)
    (t : ChainHash K V) (hcap : 0 < initial_capacity)
    (hr : Reachable get_hash_code initial_capacity t) :
    t.fill_factor_exceeds = false ∧
    t.used_buckets * 18014398509481984 ≤ t.bucket_count * (13421773 * 1073741824 + 1) ∧
    (t.bucket_count < 16777216 → 5 * t.used_buckets ≤ 4 * t.bucket_count) := by
  have h := reachable_load hcap hr
  refine ⟨by rw [fill_factor_exceeds_eq]; exact h, ?_, ?_⟩
  · simpa [load_exceeds, maxFillFactor_num, bucket_count] using h
  · intro hlt
    have h45 := load_exceeds_iff_four_fifths t.used_buckets t.capacity hlt
    rw [h] at h45
    simp only [bucket_count]
    have : ¬ 4 * t.capacity < 5 * t.used_buckets := fun h2 => by
      have := h45.mpr h2
      cases this
    omega

/-- Instance of the amended C18: the table with three keys in bucket `0`. -/
theorem load_factor_bound_witness :
    0 < 8 ∧ Reachable id 8 table_three_colliding ∧
    table_three_colliding.fill_factor_exceeds = false ∧
    table_three_colliding.used_buckets * 18014398509481984 ≤
      table_three_colliding.bucket_count * (13421773 * 1073741824 + 1) ∧
    (table_three_colliding.bucket_count < 16777216 →
      5 * table_three_colliding.used_buckets ≤ 4 * table_three_colliding.bucket_count) :=
  ⟨by decide, reachable_of_by_set table_three_colliding_reachable,
    load_factor_bound id 8 table_three_colliding (by decide)
      (reachable_of_by_set table_three_colliding_reachable)⟩

theorem table_same_hash_three_reachable :
    ReachableBySet (fun _ => 0) 8 table_same_hash_three :=
  reachable_by_set_all (fun _ => 0) 8 [(0, 0), (1, 1), (2, 2)] (init 8) table_same_hash_three
    ReachableBySet.init (by rfl)

/-- C19: with a hash that maps every key to `0`, the calls `set(0, 0)`,
`set(1, 1)`, `set(2, 2)`, `set(3, 3)` on a table of eight buckets end, after
the one rehash of the fourth call, in a reachable table of sixteen buckets
whose bucket `0` has length 4, above `maxColision`; all four entries cache
the same hash. -/
theorem chain_longer_than_max :
    set_all (fun _ => 0) (init 8) [(0, 0), (1, 1), (2, 2)] = .ok table_same_hash_three ∧
    set (fun _ => 0) table_same_hash_three 3 3 = .ok table_same_hash_four ∧
    Reachable (fun _ => 0) 8 table_same_hash_four ∧
    table_same_hash_four.bucket_count = 16 ∧
    bucket_size table_same_hash_four 0 = .ok 4 ∧
    maxColision < 4 ∧
    (∀ e ∈ table_same_hash_four.entries, e.hash = 0) :=
  ⟨by rfl, by rfl,
    Reachable.set 3 3 (reachable_of_by_set table_same_hash_three_reachable) (by rfl),
    rfl, rfl, by decide, by decide⟩

/-- C20: in every state reachable from a table of positive initial capacity
the capacity is positive and the array has `capacity` lists, so the index
`hash % capacity` is below the capacity and names a bucket, and `set`,
`get`, `remove` and `contains` return or throw key-not-found, never the
undefined branch; on a table constructed with capacity 0 each of the four
calls takes the undefined branch `hash % 0`. -/
theorem bucket_index_defined (get_hash_code : K → Nat) (initial_capacity : Nat)
    (t : ChainHash K V) (hcap : 0 < initial_capacity)
    (hr : Reachable get_hash_code initial_capacity t) (k : K) (v : V) :
    (0 < t.capacity ∧ t.buckets.length = t.capacity ∧
      get_hash_code k % t.capacity < t.capacity ∧
      (∃ b, t.buckets[get_hash_code k % t.capacity]? = some b) ∧
      (∃ t1, set get_hash_code t k v = .ok t1) ∧
      ((∃ x, get get_hash_code t k = .ok x) ∨
        get get_hash_code t k = .error .key_not_found) ∧
      (∃ found t1, remove get_hash_code t k = .ok (found, t1)) ∧
      (∃ c, contains get_hash_code t k = .ok c)) ∧
    (set get_hash_code (init 0) k v = .error .undefined_behaviour ∧
      get get_hash_code (init 0 : ChainHash K V) k = .error .undefined_behaviour ∧
      remove get_hash_code (init 0 : ChainHash K V) k = .error .undefined_behaviour ∧
      contains get_hash_code (init 0 : ChainHash K V) k = .error .undefined_behaviour) := by
  have hwf := reachable_wf hcap hr
  obtain ⟨b, hb, _⟩ := bucket_for_key hwf k
  obtain ⟨t1, h1, _⟩ := set_spec hwf k v
  obtain ⟨f, t2, h2, _⟩ := remove_spec hwf k
  obtain ⟨c, h3, _⟩ := contains_spec hwf k
  exact ⟨⟨hwf.capacity_pos, hwf.length_eq, Nat.mod_lt _ hwf.capacity_pos, ⟨b, hb⟩, ⟨t1, h1⟩,
    (get_spec hwf k).2.2, ⟨f, t2, h2⟩, ⟨c, h3⟩⟩, rfl, rfl, rfl, rfl⟩

/-- Instance of C20: key `40` in the table of sixteen buckets. -/
theorem bucket_index_defined_witness :
    0 < 8 ∧ Reachable id 8 table_four_colliding ∧
    ((0 < table_four_colliding.capacity ∧
      table_four_colliding.buckets.length = table_four_colliding.capacity ∧
      id 40 % table_four_colliding.capacity < table_four_colliding.capacity ∧
      (∃ b, table_four_colliding.buckets[id 40 % table_four_colliding.capacity]? = some b) ∧
      (∃ t1, set id table_four_colliding 40 1 = .ok t1) ∧
      ((∃ x, get id table_four_colliding 40 = .ok x) ∨
        get id table_four_colliding 40 = .error .key_not_found) ∧
      (∃ found t1, remove id table_four_colliding 40 = .ok (found, t1)) ∧
      (∃ c, contains id table_four_colliding 40 = .ok c)) ∧
    (set id (init 0) 40 1 = .error .undefined_behaviour ∧
      get id (init 0 : ChainHash Nat Nat) 40 = .error .undefined_behaviour ∧
      remove id (init 0 : ChainHash Nat Nat) 40 = .error .undefined_behaviour ∧
      contains id (init 0 : ChainHash Nat Nat) 40 = .error .undefined_behaviour)) :=
  ⟨by decide, reachable_of_by_set table_four_colliding_reachable,
    bucket_index_defined id 8 table_four_colliding (by decide)
      (reachable_of_by_set table_four_colliding_reachable) 40 1⟩

end Operations

/-! The postcondition of `rehash`. -/

section Rehash

theorem perm_flatten_insert {α : Type} (e : α) (j0 : Nat) (f g : Nat → List α)
    (hg0 : g j0 = f j0 ++ [e]) (hg : ∀ j, j ≠ j0 → g j = f j)
    (l : List Nat) (hnd : l.Nodup) (hj : j0 ∈ l) :
    ((l.map g).flatten).Perm (e :: (l.map f).flatten) := by
  induction l with
  | nil => simp at hj
  | cons a l ih =>
    rw [List.nodup_cons] at hnd
    simp only [List.map_cons, List.flatten_cons]
    by_cases ha : a = j0
    · subst ha
      have hsame : l.map g = l.map f := by
        apply List.map_congr_left
        intro j hjl
        apply hg
        rintro rfl
        exact hnd.1 hjl
      rw [hsame, hg0, List.append_assoc, List.singleton_append]
      exact List.perm_middle
    · have hjl : j0 ∈ l := by
        rcases List.mem_cons.mp hj with h | h
        · exact absurd h.symm ha
        · exact h
      rw [hg a ha]
      exact ((ih hnd.2 hjl).append_left (f a)).trans List.perm_middle

theorem perm_flatten_filter (n : Nat) (hn : 0 < n) (es : List (Entry K V)) :
    (((List.range n).map
      (fun j => (es.filter (fun e => decide (e.hash % n = j))).reverse)).flatten).Perm es := by
  induction es with
  | nil =>
    simp
  | cons e es ih =>
    refine (perm_flatten_insert e (e.hash % n)
      (fun j => (es.filter (fun x => decide (x.hash % n = j))).reverse)
      (fun j => ((e :: es).filter (fun x => decide (x.hash % n = j))).reverse)
      ?_ ?_ (List.range n) (List.nodup_range n)
      (List.mem_range.mpr (Nat.mod_lt _ hn))).trans (List.Perm.cons e ih)
    · simp
    · intro j hj
      have : ¬ e.hash % n = j := fun h => hj h.symm
      simp [this]

theorem rehash_buckets_eq (t t1 : ChainHash K V) (hcap : 0 < t.capacity)
    (hlen : t.buckets.length = t.capacity) (hr : t.rehash = .ok t1) :
    t1.buckets = (List.range (t.capacity * 2)).map
      (fun j => moved_bucket (t.capacity * 2) j t.entries LinkedList.empty) := by
  obtain ⟨t2, h1, _, _, _, hl, hb⟩ := rehash_ok t hcap hlen
  rw [hr] at h1
  cases h1
  apply List.ext_getElem?
  intro j
  by_cases hj : j < t.capacity * 2
  · rw [hb j hj]
    simp [List.getElem?_range hj]
  · rw [List.getElem?_eq_none (by rw [hl]; omega), List.getElem?_eq_none (by simp; omega)]

/-- C16: on a table of positive capacity whose array has `capacity` lists,
`rehash` returns a table of twice the capacity with as many lists, with
`size` and `used_buckets` as before, in which every entry of bucket `j` has
`hash % capacity = j`, whose entries are a permutation of the old entries,
and whose bucket `j` is the list of old entries that belong to `j`, in the
reverse of the order of the old array; so the entries of one old bucket that
land in `j` stand there in the reverse of their old chain order. -/
theorem rehash_postcondition (t : ChainHash K V) (hcap : 0 < t.capacity)
    (hlen : t.buckets.length = t.capacity) :
    ∃ t1, t.rehash = .ok t1 ∧ t1.capacity = 2 * t.capacity ∧
      t1.buckets.length = t1.capacity ∧
      t1.size = t.size ∧ t1.used_buckets = t.used_buckets ∧
      (∀ (j : Nat) (b1 : LinkedList (Entry K V)) (e : Entry K V),
        t1.buckets[j]? = some b1 → e ∈ b1.m_head → j = e.hash % t1.capacity) ∧
      t1.entries.Perm t.entries ∧
      (∀ (j : Nat) (b1 : LinkedList (Entry K V)), t1.buckets[j]? = some b1 →
        b1.m_head = (t.entries.filter (fun e => decide (e.hash % t1.capacity = j))).reverse ∧
        ∀ b ∈ t.buckets,
          ((b.m_head.filter (fun e => decide (e.hash % t1.capacity = j))).reverse).Sublist
            b1.m_head) := by
  obtain ⟨t1, h1, hc, hs, hu, hl, hb⟩ := rehash_ok t hcap hlen
  have hbk := rehash_buckets_eq t t1 hcap hlen h1
  have hc2 : t1.capacity = 2 * t.capacity := by rw [hc]; omega
  have hchain : ∀ (j : Nat) (b1 : LinkedList (Entry K V)), t1.buckets[j]? = some b1 →
      b1.m_head = (t.entries.filter (fun e => decide (e.hash % t1.capacity = j))).reverse := by
    intro j b1 hjb
    have hj : j < t.capacity * 2 := by
      rw [← hl]; exact (List.getElem?_eq_some.mp hjb).1
    rw [hb j hj] at hjb
    cases hjb
    simp [moved_bucket, LinkedList.empty, hc]
  refine ⟨t1, h1, hc2, by rw [hl, hc], hs, hu, ?_, ?_, ?_⟩
  · intro j b1 e hjb he
    rw [hchain j b1 hjb] at he
    simp only [List.mem_reverse, List.mem_filter, decide_eq_true_eq] at he
    exact he.2.symm
  · have hent : t1.entries = ((List.range (t.capacity * 2)).map
        (fun j => (t.entries.filter
          (fun e => decide (e.hash % (t.capacity * 2) = j))).reverse)).flatten := by
      simp only [entries, hbk, List.map_map]
      congr 1
      apply List.map_congr_left
      intro j _
      simp [moved_bucket, LinkedList.empty, entries]
    rw [hent]
    exact perm_flatten_filter (t.capacity * 2) (by omega) t.entries
  · intro j b1 hjb
    refine ⟨hchain j b1 hjb, ?_⟩
    intro b hbm
    rw [hchain j b1 hjb]
    apply List.Sublist.reverse
    apply List.Sublist.filter
    simp only [entries]
    exact List.sublist_flatten_of_mem (List.mem_map_of_mem _ hbm)

/-- Instance of C16: the table with three keys in bucket `0`. -/
theorem rehash_postcondition_witness :
    0 < table_three_colliding.capacity ∧
    table_three_colliding.buckets.length = table_three_colliding.capacity ∧
    ∃ t1, table_three_colliding.rehash = .ok t1 ∧
      t1.capacity = 2 * table_three_colliding.capacity ∧
      t1.buckets.length = t1.capacity ∧
      t1.size = table_three_colliding.size ∧
      t1.used_buckets = table_three_colliding.used_buckets ∧
      (∀ (j : Nat) (b1 : LinkedList (Entry Nat Nat)) (e : Entry Nat Nat),
        t1.buckets[j]? = some b1 → e ∈ b1.m_head → j = e.hash % t1.capacity) ∧
      t1.entries.Perm table_three_colliding.entries ∧
      (∀ (j : Nat) (b1 : LinkedList (Entry Nat Nat)), t1.buckets[j]? = some b1 →
        b1.m_head = (table_three_colliding.entries.filter
          (fun e => decide (e.hash % t1.capacity = j))).reverse ∧
        ∀ b ∈ table_three_colliding.buckets,
          ((b.m_head.filter (fun e => decide (e.hash % t1.capacity = j))).reverse).Sublist
            b1.m_head) :=
  ⟨by decide, rfl, rehash_postcondition table_three_colliding (by decide) rfl⟩

end Rehash

/-! The counter `used_buckets` against the number of non-empty buckets. -/

section UsedBuckets

theorem countP_le_add {α : Type} (q0 q1 q2 : α → Bool) (l : List α)
    (h : ∀ x ∈ l, q0 x = true → q1 x = true ∨ q2 x = true) :
    l.countP q0 ≤ l.countP q1 + l.countP q2 := by
  induction l with
  | nil => simp
  | cons a l ih =>
    have ih1 := ih (fun x hx => h x (List.mem_cons_of_mem _ hx))
    have ha := h a (List.mem_cons_self _ _)
    simp only [List.countP_cons]
    cases h0 : q0 a <;> cases h1 : q1 a <;> cases h2 : q2 a <;> simp_all <;> omega

theorem countP_eq_range {α : Type} (p : α → Bool) (d : α) (L : List α) :
    L.countP p = (List.range L.length).countP (fun i => p ((L[i]?).getD d)) := by
  have hL : L = (List.range L.length).map (fun i => (L[i]?).getD d) := by
    apply List.ext_getElem?
    intro i
    by_cases hi : i < L.length
    · simp [List.getElem?_range hi, List.getElem?_eq_getElem hi]
    · rw [List.getElem?_eq_none (by omega), List.getElem?_eq_none (by simp; omega)]
  conv_lhs => rw [hL]
  rw [List.countP_map]
  rfl

theorem moved_bucket_nonempty (n j : Nat) (es : List (Entry K V)) (e : Entry K V)
    (he : e ∈ es) (hj : e.hash % n = j) :
    (moved_bucket n j es LinkedList.empty).size ≠ 0 := by
  have hmem : e ∈ es.filter (fun x => decide (x.hash % n = j)) := by
    simp [List.mem_filter, he, hj]
  have := List.length_pos_of_mem hmem
  simp only [moved_bucket, LinkedList.size, LinkedList.empty]
  omega

/-- A rehash does not lower the number of non-empty buckets: the entries of
an old bucket `i` land in the new buckets `i` and `capacity + i` only. -/
theorem rehash_nonempty_le {get_hash_code : K → Nat} {t t1 : ChainHash K V}
    (hwf : WF get_hash_code t) (hr : t.rehash = .ok t1) :
    nonempty_buckets t ≤ nonempty_buckets t1 := by
  have hbk := rehash_buckets_eq t t1 hwf.capacity_pos hwf.length_eq hr
  have hcc : t.capacity * 2 = t.capacity + t.capacity := by omega
  simp only [nonempty_buckets]
  rw [hbk, countP_eq_range _ LinkedList.empty t.buckets, hwf.length_eq, hcc,
    List.range_add, List.map_append, List.countP_append, List.countP_map, List.countP_map,
    List.countP_map]
  apply countP_le_add
  intro i hi hq0
  have hic : i < t.capacity := List.mem_range.mp hi
  have hib : i < t.buckets.length := by rw [hwf.length_eq]; exact hic
  have hget : t.buckets[i]? = some (t.buckets[i]) := List.getElem?_eq_getElem hib
  simp only [hget, Option.getD_some, decide_eq_true_eq] at hq0
  have hsz := hwf.size_eq _ (List.getElem_mem hib)
  have hne : (t.buckets[i]).m_head ≠ [] := by
    intro h0
    apply hq0
    simp [LinkedList.size, hsz, h0]
  obtain ⟨e, he⟩ := List.exists_mem_of_ne_nil _ hne
  have hpl := (hwf.placed i _ hget e he).2
  have hent : e ∈ t.entries := (mem_entries_iff t e).mpr ⟨i, _, hget, he⟩
  have hr1 : e.hash % (t.capacity + t.capacity) < t.capacity + t.capacity :=
    Nat.mod_lt _ (by omega)
  have hr2 : e.hash % (t.capacity + t.capacity) % t.capacity = i := by
    rw [← hcc, Nat.mod_mul_right_mod, hpl]
  by_cases hlt : e.hash % (t.capacity + t.capacity) < t.capacity
  · left
    rw [Nat.mod_eq_of_lt hlt] at hr2
    simp only [Function.comp, decide_eq_true_eq]
    exact moved_bucket_nonempty _ _ _ e hent hr2
  · right
    have hge : t.capacity ≤ e.hash % (t.capacity + t.capacity) := Nat.le_of_not_lt hlt
    rw [Nat.mod_eq_sub_mod hge, Nat.mod_eq_of_lt (by omega)] at hr2
    simp only [Function.comp, decide_eq_true_eq]
    exact moved_bucket_nonempty _ _ _ e hent (by omega)

variable [DecidableEq K]

theorem set_absent_state {get_hash_code : K → Nat} {t t2 : ChainHash K V}
    (hwf : WF get_hash_code t) (k : K) (v : V) (b : LinkedList (Entry K V))
    (hb : t.buckets[get_hash_code k % t.capacity]? = some b)
    (hscan : set_scan k v b.m_head = none)
    (hcap : t2.capacity = t.capacity)
    (hbk : t2.buckets = t.buckets.set (get_hash_code k % t.capacity)
      (b.push_front ⟨k, get_hash_code k, v⟩))
    (hused : t2.used_buckets =
      (if b.m_size + 1 = 1 then t.used_buckets + 1 else t.used_buckets)) :
    WF get_hash_code t2 ∧
      t2.used_buckets + nonempty_buckets t = t.used_buckets + nonempty_buckets t2 := by
  have hbm : b ∈ t.buckets := List.mem_iff_getElem?.mpr ⟨_, hb⟩
  have hpl := hwf.placed _ b hb
  have hno := (set_scan_eq_none_iff k v b.m_head).mp hscan
  constructor
  · refine WF_set_bucket hwf (get_hash_code k % t.capacity) _ hcap hbk ?_ ?_ ?_
    · simp [LinkedList.push_front, hwf.size_eq b hbm]
    · intro e he
      simp only [LinkedList.push_front, List.mem_cons] at he
      rcases he with h1 | h1
      · rw [h1]; exact ⟨rfl, rfl⟩
      · exact hpl e h1
    · simp only [LinkedList.push_front, List.map_cons, List.nodup_cons]
      refine ⟨?_, hwf.nodup b hbm⟩
      intro hin
      obtain ⟨e0, he0, hk0⟩ := List.mem_map.mp hin
      exact hno e0 he0 hk0
  · have := countP_set_le (fun b => decide (b.size ≠ 0)) t.buckets _ b
      (b.push_front ⟨k, get_hash_code k, v⟩) hb
    simp only [nonempty_buckets, LinkedList.size, hbk, LinkedList.push_front] at this ⊢
    rw [hused]
    by_cases h0 : b.m_size = 0
    · simp [h0] at this ⊢
      omega
    · simp [h0] at this ⊢
      omega

theorem set_used_le_nonempty {get_hash_code : K → Nat} {t t1 : ChainHash K V}
    (hwf : WF get_hash_code t) (k : K) (v : V) (hs : set get_hash_code t k v = .ok t1)
    (hle : t.used_buckets ≤ nonempty_buckets t) :
    t1.used_buckets ≤ nonempty_buckets t1 := by
  have hpos := hwf.capacity_pos
  rcases set_capacity k v hs with hc | hc
  · have := set_step_count hwf k v hs hc
    omega
  · obtain ⟨b, hb, _, _⟩ := bucket_for_key hwf k
    cases hscan : set_scan k v b.m_head with
    | some chain =>
      rw [set_present k v b chain hwf.capacity_pos hb hscan] at hs
      cases hs
      simp only at hc
      omega
    | none =>
      obtain ⟨t2, hcap, hbk, _, hused, hset⟩ := set_absent k v b hwf.capacity_pos hb hscan
      rw [hs] at hset
      obtain ⟨hwf2, hcnt⟩ := set_absent_state hwf k v b hb hscan hcap hbk hused
      split at hset
      · have h1 := rehash_nonempty_le hwf2 hset.symm
        have h2 := (rehash_fields hset.symm).2.2
        omega
      · cases hset
        omega

theorem used_le_nonempty_by_set {get_hash_code : K → Nat} {c0 : Nat} {t : ChainHash K V}
    (hc0 : 0 < c0) (hr : ReachableBySet get_hash_code c0 t) :
    t.used_buckets ≤ nonempty_buckets t := by
  induction hr with
  | init => simp [ChainHash.init]
  | set key value hprev hs ih =>
    exact set_used_le_nonempty (reachable_wf hc0 (reachable_of_by_set hprev)) key value hs ih

/-- C8 amended: in every state reached from a table of positive initial
capacity by `set` alone, rehashes included, `used_buckets` is at most the
number of non-empty buckets, and equals it while `bucket_count()` is still
the initial capacity (no rehash yet).  In every state reached by `set` and
`remove` before the first rehash, `used_buckets` is at least that number.
On every table `remove` keeps `used_buckets` and `rehash` keeps it. -/
theorem used_buckets_bounds (get_hash_code : K → Nat) (initial_capacity : Nat)
    (t : ChainHash K V) (hcap : 0 < initial_capacity)
    (hr : Reachable get_hash_code initial_capacity t) :
    (ReachableBySet get_hash_code initial_capacity t →
      t.used_buckets ≤ nonempty_buckets t) ∧
    (ReachableBySet get_hash_code initial_capacity t →
      t.bucket_count = initial_capacity → t.used_buckets = nonempty_buckets t) ∧
    (t.bucket_count = initial_capacity → nonempty_buckets t ≤ t.used_buckets) ∧
    (∀ (s s1 : ChainHash K V) (k : K) (found : Bool),
      remove get_hash_code s k = .ok (found, s1) → s1.used_buckets = s.used_buckets) ∧
    (∀ s s1 : ChainHash K V, s.rehash = .ok s1 → s1.used_buckets = s.used_buckets) :=
  ⟨fun hs => used_le_nonempty_by_set hcap hs, fun hs hno => used_eq_nonempty hcap hs hno,
    fun hno => nonempty_le_used hcap hr hno,
    fun _ _ k _ hs => (remove_fields k hs).2.2, fun _ _ hs => (rehash_fields hs).2.2⟩

/-- Instance of the amended C8: the table of sixteen buckets reached by four
colliding `set` calls and one rehash, the table holding `1 ↦ 1`, and its
`remove(1)`. -/
theorem used_buckets_bounds_witness :
    0 < 8 ∧ Reachable id 8 table_four_colliding ∧
    ReachableBySet id 8 table_four_colliding ∧
    table_four_colliding.used_buckets ≤ nonempty_buckets table_four_colliding ∧
    Reachable id 8 table_one_key ∧ ReachableBySet id 8 table_one_key ∧
    table_one_key.bucket_count = 8 ∧
    table_one_key.used_buckets = nonempty_buckets table_one_key ∧
    nonempty_buckets table_one_key ≤ table_one_key.used_buckets ∧
    remove id table_one_key 1 = .ok (true, table_key_removed) ∧
    table_key_removed.used_buckets = table_one_key.used_buckets :=
  ⟨by decide, reachable_of_by_set table_four_colliding_reachable,
    table_four_colliding_reachable,
    (used_buckets_bounds id 8 table_four_colliding (by decide)
      (reachable_of_by_set table_four_colliding_reachable)).1 table_four_colliding_reachable,
    Reachable.set 1 1 Reachable.init rfl, ReachableBySet.set 1 1 ReachableBySet.init rfl, rfl,
    (used_buckets_bounds id 8 table_one_key (by decide)
      (Reachable.set 1 1 Reachable.init rfl)).2.1
      (ReachableBySet.set 1 1 ReachableBySet.init rfl) rfl,
    (used_buckets_bounds id 8 table_one_key (by decide)
      (Reachable.set 1 1 Reachable.init rfl)).2.2.1 rfl,
    rfl,
    (used_buckets_bounds id 8 table_one_key (by decide)
      (Reachable.set 1 1 Reachable.init rfl)).2.2.2.1 table_one_key table_key_removed 1 true
      rfl⟩

end UsedBuckets

end ChainHash

/-! The linked list. -/

namespace LinkedList

variable {T : Type}

theorem push_back_walk_eq (data : T) (l : List T) : push_back_walk data l = l ++ [data] := by
  induction l with
  | nil => rfl
  | cons x rest ih => simp [push_back_walk, ih]

theorem pop_back_walk_eq (x : T) (rest : List T) :
    pop_back_walk x rest = ((x :: rest).getLast (List.cons_ne_nil x rest), (x :: rest).dropLast) := by
  induction rest generalizing x with
  | nil => rfl
  | cons y rest ih =>
    rw [pop_back_walk, ih y]
    simp [List.getLast_cons, List.dropLast]

theorem back_walk_eq (x : T) (rest : List T) :
    back_walk x rest = (x :: rest).getLast (List.cons_ne_nil x rest) := by
  induction rest generalizing x with
  | nil => rfl
  | cons y rest ih =>
    rw [back_walk, ih y]
    simp [List.getLast_cons]

theorem index_walk_eq (l : List T) (i : Nat) :
    index_walk l i =
      match l[i]? with
      | some x => .ok x
      | none => .error .undefined_behaviour := by
  induction l generalizing i with
  | nil => simp [index_walk]
  | cons x rest ih =>
    cases i with
    | zero => simp [index_walk]
    | succ i => simp [index_walk, ih i]

theorem reverse_loop_eq (done rest : List T) :
    reverse_loop done rest = rest.reverse ++ done := by
  induction rest generalizing done with
  | nil => simp [reverse_loop]
  | cons y rest ih => simp [reverse_loop, ih]

theorem call_refines (l : LinkedList T) (h : l.m_size = l.m_head.length) (op : ListOp T) :
    (l.call op).1.m_head = (reference_call l.m_head op).1 ∧
    (l.call op).2 = (reference_call l.m_head op).2 ∧
    (l.call op).1.m_size = (l.call op).1.m_head.length := by
  obtain ⟨chain, n⟩ := l
  simp only at h
  subst h
  cases op with
  | push_front data => simp [call, reference_call, push_front]
  | push_back data => simp [call, reference_call, push_back, push_back_walk_eq]
  | pop_front =>
    cases chain with
    | nil => simp [call, reference_call, pop_front]
    | cons x rest => simp [call, reference_call, pop_front]
  | pop_back =>
    cases chain with
    | nil => simp [call, reference_call, pop_back]
    | cons x rest =>
      simp [call, reference_call, pop_back, pop_back_walk_eq, List.getLast?_eq_getLast]

theorem call_count (s : List T) (op : ListOp T) :
    (reference_call s op).1.length + pops [(reference_call s op).2] =
      s.length + pushes [op] := by
  cases op with
  | push_front data => simp [reference_call, pops, pushes]
  | push_back data => simp [reference_call, pops, pushes]
  | pop_front =>
    cases s with
    | nil => simp [reference_call, pops, pushes]
    | cons x rest => simp [reference_call, pops, pushes]
  | pop_back =>
    cases hs : s.getLast? with
    | none => simp [reference_call, pops, pushes, hs]
    | some x =>
      have hne : s ≠ [] := by
        intro h0
        rw [h0] at hs
        simp at hs
      have := List.length_pos.mpr hne
      simp [reference_call, pops, pushes, hs]
      omega

theorem pops_cons (o : Except Error (Option T)) (outs : List (Except Error (Option T))) :
    pops (o :: outs) = pops [o] + pops outs := by
  cases o with
  | error e => simp [pops]
  | ok r =>
    cases r with
    | none => simp [pops]
    | some x => simp [pops]; omega

theorem pushes_cons (op : ListOp T) (ops : List (ListOp T)) :
    pushes (op :: ops) = pushes [op] + pushes ops := by
  cases op <;> simp [pushes] <;> omega

theorem run_refines (ops : List (ListOp T)) (l : LinkedList T)
    (h : l.m_size = l.m_head.length) :
    (l.run ops).1.m_head = (reference_run l.m_head ops).1 ∧
    (l.run ops).2 = (reference_run l.m_head ops).2 ∧
    (l.run ops).1.m_size = (l.run ops).1.m_head.length ∧
    (reference_run l.m_head ops).1.length + pops (reference_run l.m_head ops).2 =
      l.m_head.length + pushes ops := by
  induction ops generalizing l with
  | nil => simp [run, reference_run, pops, pushes, h]
  | cons op ops ih =>
    obtain ⟨c1, c2, c3⟩ := call_refines l h op
    obtain ⟨i1, i2, i3, i4⟩ := ih (l.call op).1 c3
    have hc := call_count l.m_head op
    simp only [run, reference_run]
    rw [c1] at i1 i2 i4
    refine ⟨i1, by rw [c2, i2], i3, ?_⟩
    rw [pops_cons, pushes_cons]
    omega

/-- C11: for every sequence of `push_front`, `push_back`, `pop_front` and
`pop_back` calls on an empty list, the outcomes of the calls (each popped
element, each empty-container error) are those of the reference sequence
under cons, append at the end, drop the first, drop the last; `size()` is the
length of the reference sequence; that length plus the number of successful
pops is the number of pushes; and `operator[](i)` returns the `i`-th
reference element for every `i` below the length. -/
theorem list_refines_sequence (ops : List (ListOp T)) :
    ((empty : LinkedList T).run ops).2 = (reference_run ([] : List T) ops).2 ∧
    ((empty : LinkedList T).run ops).1.size = (reference_run ([] : List T) ops).1.length ∧
    (reference_run ([] : List T) ops).1.length + pops ((empty : LinkedList T).run ops).2 =
      pushes ops ∧
    ∀ (i : Nat) (hi : i < (reference_run ([] : List T) ops).1.length),
      ((empty : LinkedList T).run ops).1.index i =
        .ok ((reference_run ([] : List T) ops).1[i]) := by
  obtain ⟨h1, h2, h3, h4⟩ := run_refines ops (empty : LinkedList T) rfl
  simp only [empty, List.length_nil, Nat.zero_add] at h1 h2 h3 h4
  simp only [empty, size]
  refine ⟨h2, by rw [h3, h1], by rw [h2]; exact h4, ?_⟩
  intro i hi
  have hsz : i < (run (⟨[], 0⟩ : LinkedList T) ops).1.m_size := by
    rw [h3, h1]; exact hi
  simp only [index, ge_iff_le, Nat.not_le.mpr hsz, if_false, index_walk_eq, h1,
    List.getElem?_eq_getElem hi]

/-- C12: on every list whose counter equals the length of its chain,
`reverse()` returns, the chain is the old one in reversed order and `size()`
is kept; a second `reverse()` gives the list back; and a list of at most one
element is returned as it is. -/
theorem reverse_involution (l : LinkedList T) (h : l.m_size = l.m_head.length) :
    ∃ r, l.reverse = .ok r ∧ r.m_head = l.m_head.reverse ∧ r.size = l.size ∧
      r.reverse = .ok l ∧ (l.size ≤ 1 → r = l) := by
  obtain ⟨chain, n⟩ := l
  simp only at h
  subst h
  cases chain with
  | nil => exact ⟨⟨[], 0⟩, by simp [reverse], rfl, rfl, by simp [reverse], fun _ => rfl⟩
  | cons x rest =>
    cases rest with
    | nil => exact ⟨⟨[x], 1⟩, by simp [reverse], rfl, rfl, by simp [reverse], fun _ => rfl⟩
    | cons y rest =>
      refine ⟨⟨(x :: y :: rest).reverse, (x :: y :: rest).length⟩, ?_, rfl, rfl, ?_, ?_⟩
      · simp [reverse, reverse_loop_eq]
      · have hrev : (x :: y :: rest).reverse = rest.reverse ++ [y, x] := by simp
        rw [hrev]
        cases hr : rest.reverse with
        | nil =>
          have : rest = [] := by simpa using hr
          subst this
          simp [reverse, reverse_loop]
        | cons z zs =>
          have hrest : rest = zs.reverse ++ [z] := by
            have := congrArg List.reverse hr
            simpa using this
          subst hrest
          simp [reverse, reverse_loop_eq]
      · intro hle
        simp [size] at hle

/-- Instance of C12: the list `1, 2, 3`. -/
theorem reverse_involution_witness :
    (⟨[1, 2, 3], 3⟩ : LinkedList Nat).m_size = (⟨[1, 2, 3], 3⟩ : LinkedList Nat).m_head.length ∧
    ∃ r, (⟨[1, 2, 3], 3⟩ : LinkedList Nat).reverse = .ok r ∧
      r.m_head = (⟨[1, 2, 3], 3⟩ : LinkedList Nat).m_head.reverse ∧
      r.size = (⟨[1, 2, 3], 3⟩ : LinkedList Nat).size ∧
      r.reverse = .ok ⟨[1, 2, 3], 3⟩ ∧
      ((⟨[1, 2, 3], 3⟩ : LinkedList Nat).size ≤ 1 → r = ⟨[1, 2, 3], 3⟩) :=
  ⟨rfl, reverse_involution ⟨[1, 2, 3], 3⟩ rfl⟩

/-- C13: on every list whose counter equals the length of its chain, `front()`,
`back()`, `pop_front()` and `pop_back()` fail with the empty-container error
exactly when `size()` is zero and return otherwise; a pop that fails leaves
the list as it is (`front()` and `back()` never write); `operator[](i)`
fails with the list-index error exactly when `i >= size()` and returns
otherwise.  On the empty list `pop_front()` fails, and after `push_back(x)`,
`pop_front()` returns `x` and leaves the empty list. -/
theorem list_errors (l : LinkedList T) (h : l.m_size = l.m_head.length) :
    (l.front = .error .list_is_empty ↔ l.size = 0) ∧
    (l.back = .error .list_is_empty ↔ l.size = 0) ∧
    (l.pop_front = .error .list_is_empty ↔ l.size = 0) ∧
    (l.pop_back = .error .list_is_empty ↔ l.size = 0) ∧
    (l.size ≠ 0 → (∃ x, l.front = .ok x) ∧ (∃ x, l.back = .ok x) ∧
      (∃ x l1, l.pop_front = .ok (x, l1)) ∧ (∃ x l1, l.pop_back = .ok (x, l1))) ∧
    (l.size = 0 → (l.call .pop_front).1 = l ∧ (l.call .pop_back).1 = l) ∧
    (∀ i, l.index i = .error .list_index_out_of_bounds ↔ i ≥ l.size) ∧
    (∀ i, i < l.size → ∃ x, l.index i = .ok x) ∧
    ((empty : LinkedList T).pop_front = .error .list_is_empty ∧
      ∀ x : T, ((empty : LinkedList T).push_back x).pop_front = .ok (x, empty)) := by
  obtain ⟨chain, n⟩ := l
  simp only at h
  subst h
  have hidx : ∀ i, i < chain.length →
      ∃ x, index (⟨chain, chain.length⟩ : LinkedList T) i = .ok x := by
    intro i hi
    refine ⟨chain[i], ?_⟩
    simp [index, index_walk_eq, hi]
  refine ⟨?_, ?_, ?_, ?_, ?_, ?_, ?_, hidx, ?_⟩
  · cases chain <;> simp [front, size]
  · cases chain <;> simp [back, size]
  · cases chain <;> simp [pop_front, size]
  · cases chain <;> simp [pop_back, size]
  · intro hne
    cases chain with
    | nil => simp [size] at hne
    | cons x rest => simp [front, back, pop_front, pop_back]
  · intro h0
    cases chain with
    | nil => simp [call, pop_front, pop_back]
    | cons x rest => simp [size] at h0
  · intro i
    constructor
    · intro he
      by_contra hlt
      obtain ⟨x, hx⟩ := hidx i (by simpa [size] using hlt)
      rw [hx] at he
      cases he
    · intro hge
      simp only [size] at hge
      simp [index, hge]
  · refine ⟨rfl, fun x => rfl⟩

/-- Instance of C13: the list holding `5`, and the empty list. -/
theorem list_errors_witness :
    (⟨[5], 1⟩ : LinkedList Nat).m_size = (⟨[5], 1⟩ : LinkedList Nat).m_head.length ∧
    (⟨[5], 1⟩ : LinkedList Nat).pop_front = .ok (5, empty) ∧
    ((⟨[5], 1⟩ : LinkedList Nat).index 1 = .error .list_index_out_of_bounds ↔
      1 ≥ (⟨[5], 1⟩ : LinkedList Nat).size) ∧
    (empty : LinkedList Nat).pop_front = .error .list_is_empty ∧
    ((empty : LinkedList Nat).push_back 5).pop_front = .ok (5, empty) :=
  ⟨rfl, rfl, (list_errors ⟨[5], 1⟩ rfl).2.2.2.2.2.2.1 1,
    (list_errors ⟨[5], 1⟩ rfl).2.2.2.2.2.2.2.2.1,
    (list_errors ⟨[5], 1⟩ rfl).2.2.2.2.2.2.2.2.2 5⟩

theorem visit_from_eq (n : Nat) (suf pre : List T) (hsuf : suf ≠ []) :
    visit_from ⟨pre ++ suf, n⟩ (suf.length + 1) ⟨some pre.length⟩ = .ok suf := by
  induction suf generalizing pre with
  | nil => exact absurd rfl hsuf
  | cons e rest ih =>
    have hne : (⟨some pre.length⟩ : iterator) ≠ LinkedList.end_ (⟨pre ++ e :: rest, n⟩ : LinkedList T) := by
      simp [LinkedList.end_]
    have hderef : iterator.deref (⟨pre ++ e :: rest, n⟩ : LinkedList T) ⟨some pre.length⟩ = .ok e := by
      have h0 : (pre ++ e :: rest)[pre.length]? = some e := by
        rw [List.getElem?_append_right (Nat.le_refl _)]
        simp
      simp [iterator.deref, h0]
    cases rest with
    | nil =>
      simp [visit_from, hne, hderef, iterator.next, LinkedList.end_]
    | cons e2 rest2 =>
      have hnext : iterator.next (⟨pre ++ e :: e2 :: rest2, n⟩ : LinkedList T) ⟨some pre.length⟩
          = .ok ⟨some (pre ++ [e]).length⟩ := by
        simp [iterator.next]
      have := ih (pre ++ [e]) (by simp)
      simp only [List.append_assoc, List.singleton_append] at this
      rw [visit_from]
      simp only [hne, if_false, hderef, hnext]
      simp only [List.length_cons] at this ⊢
      rw [this]

theorem advance_eq (l : LinkedList T) (i : Nat) (hi : i < l.m_head.length) :
    advance l i l.begin = .ok ⟨some i⟩ := by
  have hgen : ∀ k j, j + k < l.m_head.length → advance l k ⟨some j⟩ = .ok ⟨some (j + k)⟩ := by
    intro k
    induction k with
    | zero => intro j _; rfl
    | succ k ih =>
      intro j hj
      have h1 : j < l.m_head.length := by omega
      have h2 : j + 1 < l.m_head.length := by omega
      simp only [advance, iterator.next, h1, h2, if_true]
      rw [ih (j + 1) (by omega)]
      congr 3
      omega
  have hb : l.begin = ⟨some 0⟩ := by
    cases hl : l.m_head with
    | nil => rw [hl] at hi; simp at hi
    | cons x rest => simp [begin, hl]
  rw [hb]
  simpa using hgen i 0 (by simpa using hi)

/-- Removal at a position that is not the last one, for reference. -/
theorem remove_then_visit (l : LinkedList T) (h : l.m_size = l.m_head.length) (i : Nat)
    (hi : i + 1 < l.m_head.length) :
    ∃ l1, advance l i l.begin = .ok ⟨some i⟩ ∧ l.remove ⟨some i⟩ = .ok l1 ∧
      l1.m_head = l.m_head.take i ++ l.m_head.drop (i + 1) ∧ l1.size + 1 = l.size ∧
      visit_from l1 (l.m_head.length - i) ⟨some i⟩ = .ok (l.m_head.drop (i + 1)) := by
  have hi0 : i < l.m_head.length := by omega
  refine ⟨⟨l.m_head.eraseIdx i, l.m_size - 1⟩, advance_eq l i hi0, by simp [remove, hi0], ?_,
    by simp only [size]; omega, ?_⟩
  · simp only
    rw [List.eraseIdx_eq_take_drop_succ]
  · have hdrop : l.m_head.drop (i + 1) ≠ [] := by
      simp only [ne_eq, List.drop_eq_nil_iff, not_le]
      exact hi
    have := visit_from_eq (l.m_size - 1) (l.m_head.drop (i + 1)) (l.m_head.take i) hdrop
    rw [List.eraseIdx_eq_take_drop_succ]
    simp only [List.length_take, List.length_drop, Nat.min_eq_left (Nat.le_of_lt hi0)] at this
    have hfuel : l.m_head.length - (i + 1) + 1 = l.m_head.length - i := by omega
    rw [hfuel] at this
    exact this

/-- C14 fails on the code at the last position: on the list `1, 2` the handle
reached by one `++` from `begin()` is removed; the list then holds `1`, but
the handle still holds the address of a link slot, so it differs from
`end()`, and continuing the loop dereferences the null link. -/
theorem remove_last_then_iterate :
    advance (⟨[1, 2], 2⟩ : LinkedList Nat) 1 (⟨[1, 2], 2⟩ : LinkedList Nat).begin = .ok ⟨some 1⟩ ∧
    (⟨[1, 2], 2⟩ : LinkedList Nat).remove ⟨some 1⟩ = .ok ⟨[1], 1⟩ ∧
    (⟨some 1⟩ : iterator) ≠ (⟨[1], 1⟩ : LinkedList Nat).end_ ∧
    iterator.deref (⟨[1], 1⟩ : LinkedList Nat) ⟨some 1⟩ = .error .undefined_behaviour ∧
    visit_from (⟨[1], 1⟩ : LinkedList Nat) 2 ⟨some 1⟩ = .error .undefined_behaviour :=
  ⟨rfl, rfl, by decide, rfl, rfl⟩

end LinkedList

end ChainHashTable
